import Mathlib

/-!
# Verification of the constrata binary record codec

Shallow embedding of the core of the `constrata` Python library
(field-metadata compiler, record pack/unpack engine, bit-field coalescer,
deferred-offset reservation ledger), translated from:

* `constrata/byte_order.py`
* `constrata/streams/base.py`, `reader.py`, `writer.py`, `bits.py`
* `constrata/metadata.py`
* `constrata/binary_struct.py`
* `constrata/utilities.py`

Bytes are modelled as `List Nat` (each entry `< 256` where produced by the
code), Python `struct` format strings as lists of `FmtTok` tokens with an
optional byte-order marker, and fallible operations as `Except String`.
Python `None` for the `long_varints` flag and for field values is modelled
with `Option`.  Floating-point tokens are outside the modelled fragment.
Native byte orders (`@`, `=`) are modelled with standard sizes and
little-endian encoding (no C alignment).
-/

namespace Constrata

/-- `ByteOrder` enum from `constrata/byte_order.py`. -/
inductive ByteOrder where
  | nativeAutoAligned
  | nativeNotAutoAligned
  | littleEndian
  | bigEndian
  | network
  deriving DecidableEq, Repr

/-- Whether the byte order encodes most-significant byte first
(`>` and `!` in the source). -/
def ByteOrder.isBig : ByteOrder → Bool
  | .bigEndian => true
  | .network => true
  | _ => false

/-- `ByteOrder.get_utf_16_encoding` from the source: big-endian orders map to
`utf-16-be`, all others to `utf-16-le`. -/
def ByteOrder.getUtf16Encoding : ByteOrder → String
  | .bigEndian => "utf-16-be"
  | .network => "utf-16-be"
  | _ => "utf-16-le"

/-- One `struct` format token.  `tbytes n` is the `"Ns"` token;
`varint`/`varuint` are the unresolved `v`/`V` characters. -/
inductive FmtTok where
  | tbool
  | u8
  | i8
  | u16
  | i16
  | u32
  | i32
  | u64
  | i64
  | tbytes (n : Nat)
  | varint
  | varuint
  deriving DecidableEq, Repr

/-- Byte size and signedness of the integer tokens (`None` for non-integer
tokens), mirroring `PRIMITIVE_FMT_SIZE_MINMAX`. -/
def FmtTok.intSpec : FmtTok → Option (Nat × Bool)
  | .u8 => some (1, false)
  | .i8 => some (1, true)
  | .u16 => some (2, false)
  | .i16 => some (2, true)
  | .u32 => some (4, false)
  | .i32 => some (4, true)
  | .u64 => some (8, false)
  | .i64 => some (8, true)
  | _ => none

/-- `struct.calcsize` of a single token; `none` for the unresolved
`v`/`V` characters, on which `struct.calcsize` raises. -/
def FmtTok.byteSize : FmtTok → Option Nat
  | .tbool => some 1
  | .u8 => some 1
  | .i8 => some 1
  | .u16 => some 2
  | .i16 => some 2
  | .u32 => some 4
  | .i32 => some 4
  | .u64 => some 8
  | .i64 => some 8
  | .tbytes n => some n
  | .varint => none
  | .varuint => none

/-- A runtime value fed to / produced by `struct.pack` / `struct.unpack`:
Python `bool`, `int`, or `bytes`. -/
inductive BinValue where
  | vbool (b : Bool)
  | vint (i : Int)
  | vbytes (bs : List Nat)
  deriving DecidableEq, Repr

/-- Python truthiness of a `BinValue` (used by the `?` token). -/
def BinValue.truthy : BinValue → Bool
  | .vbool b => b
  | .vint i => i != 0
  | .vbytes bs => bs != []

/-- View a `BinValue` as a Python `int` where the language would accept one
(`bool` is an `int` subclass). -/
def BinValue.intValue? : BinValue → Option Int
  | .vbool b => some (if b then 1 else 0)
  | .vint i => some i
  | .vbytes _ => none

/-- Little-endian byte list (length `n`) of a natural number. -/
def natLEBytes : Nat → Nat → List Nat
  | 0, _ => []
  | n + 1, v => v % 256 :: natLEBytes n (v / 256)

/-- Natural number denoted by a little-endian byte list. -/
def natFromLE : List Nat → Nat
  | [] => 0
  | b :: bs => b + 256 * natFromLE bs

/-- Apply the byte order: big-endian reverses the little-endian byte list. -/
def orient (big : Bool) (l : List Nat) : List Nat :=
  if big then l.reverse else l

/-- Lower range bound of an integer token (`PRIMITIVE_FMT_SIZE_MINMAX`). -/
def intLo (n : Nat) (signed : Bool) : Int :=
  if signed then -(2 ^ (8 * n - 1)) else 0

/-- Upper range bound of an integer token (`PRIMITIVE_FMT_SIZE_MINMAX`). -/
def intHi (n : Nat) (signed : Bool) : Int :=
  if signed then 2 ^ (8 * n - 1) - 1 else 2 ^ (8 * n) - 1

/-- `struct.pack` of one integer value: range check, then two's-complement
bytes in the requested order. -/
def encodeInt (big : Bool) (n : Nat) (signed : Bool) (i : Int) :
    Except String (List Nat) :=
  if intLo n signed ≤ i ∧ i ≤ intHi n signed then
    .ok (orient big (natLEBytes n (i % (2 ^ (8 * n))).toNat))
  else
    .error "struct.error: argument out of range"

/-- `struct.unpack` of one integer value from `n` bytes. -/
def decodeInt (big : Bool) (n : Nat) (signed : Bool) (bs : List Nat) : Int :=
  let u : Nat := natFromLE (orient big bs)
  if signed = true ∧ 2 ^ (8 * n - 1) ≤ u then (u : Int) - 2 ^ (8 * n) else (u : Int)

/-- `struct.pack` of one token. The `"Ns"` token truncates long byte strings
and null-pads short ones, as the Python `struct` module does. -/
def encodeTok (big : Bool) (t : FmtTok) (v : BinValue) : Except String (List Nat) :=
  match t, v with
  | .tbool, v => .ok [if v.truthy then 1 else 0]
  | .tbytes n, .vbytes bs => .ok (bs.take n ++ List.replicate (n - bs.length) 0)
  | .tbytes _, _ => .error "struct.error: argument for s must be a bytes object"
  | t, v =>
    match t.intSpec, v.intValue? with
    | some (n, signed), some i => encodeInt big n signed i
    | some _, none => .error "struct.error: required argument is not an integer"
    | none, _ => .error "struct.error: bad char in struct format"

/-- `struct.unpack` of one token from its exact byte span. -/
def decodeTok (big : Bool) (t : FmtTok) (bs : List Nat) : BinValue :=
  match t with
  | .tbool => .vbool (bs.headD 0 != 0)
  | .tbytes _ => .vbytes bs
  | t =>
    match t.intSpec with
    | some (n, signed) => .vint (decodeInt big n signed bs)
    | none => .vint 0

/-- Validity of a value for a (resolved) token: the ranges `struct.pack`
accepts, with exact length for byte strings. -/
def validTokValue (t : FmtTok) (v : BinValue) : Bool :=
  match t, v with
  | .tbool, .vbool _ => true
  | .tbytes n, .vbytes bs => bs.length == n && bs.all (· < 256)
  | t, .vint i =>
    match t.intSpec with
    | some (n, signed) => decide (intLo n signed ≤ i) && decide (i ≤ intHi n signed)
    | none => false
  | _, _ => false

/-- Replacement of the `v`/`V` characters performed by
`BinaryBase.parse_fmt`: `long_varints` truthy (`some true`) gives `q`/`Q`,
anything else — including Python `None` — gives `i`/`I`. -/
def resolveVar (lv : Option Bool) : FmtTok → FmtTok
  | .varint => if lv.getD false then .i64 else .i32
  | .varuint => if lv.getD false then .u64 else .u32
  | t => t

/-- A `struct` format string: an optional leading byte-order character plus
the token sequence. -/
structure FmtStr where
  bo : Option ByteOrder
  toks : List FmtTok
  deriving DecidableEq, Repr

/-- `BinaryBase.parse_fmt`: insert the default byte order when the string
has none, and replace the `v`/`V` characters using `long_varints`. -/
def parseFmt (defaultBo : ByteOrder) (lv : Option Bool) (f : FmtStr) : FmtStr :=
  { bo := some (f.bo.getD defaultBo), toks := f.toks.map (resolveVar lv) }

/-- `struct.calcsize` over a token list (standard sizes; raises on an
unresolved `v`/`V` character). -/
def calcsize : List FmtTok → Except String Nat
  | [] => .ok 0
  | t :: ts =>
    match t.byteSize, calcsize ts with
    | some n, .ok m => .ok (n + m)
    | none, _ => .error "struct.error: bad char in struct format"
    | _, .error e => .error e

/-- `struct.pack`: values are encoded token by token and concatenated; the
argument count must match the format. -/
def structPack (big : Bool) : List FmtTok → List BinValue → Except String (List Nat)
  | [], [] => .ok []
  | [], _ :: _ => .error "struct.error: too many arguments"
  | _ :: _, [] => .error "struct.error: not enough arguments"
  | t :: ts, v :: vs =>
    match encodeTok big t v, structPack big ts vs with
    | .ok bs, .ok rest => .ok (bs ++ rest)
    | .error e, _ => .error e
    | _, .error e => .error e

/-- `struct.unpack`: the buffer is consumed token by token and must be fully
consumed. -/
def structUnpack (big : Bool) : List FmtTok → List Nat → Except String (List BinValue)
  | [], bs => if bs = [] then .ok [] else .error "struct.error: unpack requires exact size"
  | t :: ts, bs =>
    match t.byteSize with
    | none => .error "struct.error: bad char in struct format"
    | some n =>
      if n ≤ bs.length then
        match structUnpack big ts (bs.drop n) with
        | .ok vs => .ok (decodeTok big t (bs.take n) :: vs)
        | .error e => .error e
      else
        .error "struct.error: unpack requires more bytes"

/-- Predicate: the list has no unresolved `v`/`V` tokens. -/
def noVarToks (ts : List FmtTok) : Bool :=
  ts.all (fun t => t != .varint && t != .varuint)

/-- Pairwise validity of a value list against a token list. -/
def validValues : List FmtTok → List BinValue → Bool
  | [], [] => true
  | t :: ts, v :: vs => validTokValue t v && validValues ts vs
  | _, _ => false

/-- A `BinaryReader` over in-memory bytes (`constrata/streams/reader.py`):
buffer contents, current position, default byte order and the
`long_varints` flag (whose constructor default is `True`). -/
structure BinaryReader where
  data : List Nat
  pos : Nat
  defaultByteOrder : ByteOrder
  longVarints : Option Bool
  deriving Repr

/-- `BinaryReader.unpack`: parse the format, read `calcsize` bytes from the
current position (erroring when fewer are available), `struct.unpack` them
and advance the position. -/
def BinaryReader.unpack (r : BinaryReader) (f : FmtStr) :
    Except String (List BinValue × BinaryReader) :=
  let pf := parseFmt r.defaultByteOrder r.longVarints f
  match calcsize pf.toks with
  | .error e => .error e
  | .ok size =>
    let raw := (r.data.drop r.pos).take size
    if raw.length < size then
      .error "Could not unpack bytes from reader."
    else
      match structUnpack (pf.bo.getD r.defaultByteOrder).isBig pf.toks raw with
      | .error e => .error e
      | .ok vals => .ok (vals, { r with pos := r.pos + size })

/-- Key munging of the `obj` parameter of the reservation methods:
`f"{cls}__{id(obj)}({name})"` in the source.  The object identity string is
abstracted as an opaque `String`. -/
def reserveName (name : String) (obj : Option String) : String :=
  match obj with
  | some o => o ++ "(" ++ name ++ ")"
  | none => name

/-- One pending patch of `BinaryWriter.reserved`: target offset and the
wire format stored at reservation time (already passed through
`parse_fmt`, so its byte order is baked in). -/
structure Reservation where
  offset : Nat
  fmt : FmtStr
  deriving DecidableEq, Repr

/-- `BinaryWriter` (`constrata/streams/writer.py`): growable byte array
plus the reservation ledger.  The ledger is an association list with unique
keys (a Python `dict`). -/
structure BinaryWriter where
  defaultByteOrder : ByteOrder
  longVarints : Option Bool
  array : List Nat
  reserved : List (String × Reservation)
  deriving Repr

/-- `BinaryWriter.__init__` with its defaults (`long_varints: bool = True`). -/
def mkBinaryWriter (bo : ByteOrder) : BinaryWriter :=
  { defaultByteOrder := bo, longVarints := some true, array := [], reserved := [] }

/-- `BinaryWriter.calcsize`: struct size of the parsed format. -/
def BinaryWriter.calcsize (w : BinaryWriter) (f : FmtStr) : Except String Nat :=
  Constrata.calcsize (parseFmt w.defaultByteOrder w.longVarints f).toks

/-- `BinaryWriter.pack`: append `struct.pack(self.parse_fmt(fmt), *values)`
to the array. -/
def BinaryWriter.pack (w : BinaryWriter) (f : FmtStr) (values : List BinValue) :
    Except String BinaryWriter :=
  let pf := parseFmt w.defaultByteOrder w.longVarints f
  match structPack (pf.bo.getD w.defaultByteOrder).isBig pf.toks values with
  | .error e => .error e
  | .ok bs => .ok { w with array := w.array ++ bs }

/-- `BinaryWriter.reserve`: refuse duplicate keys, record
`(len(array), parsed fmt)` and append null placeholder bytes. -/
def BinaryWriter.reserve (w : BinaryWriter) (name : String) (f : FmtStr)
    (obj : Option String) : Except String BinaryWriter :=
  let key := reserveName name obj
  if (w.reserved.lookup key).isSome then
    .error "Name is already reserved in BinaryWriter."
  else
    let pf := parseFmt w.defaultByteOrder w.longVarints f
    match Constrata.calcsize pf.toks with
    | .error e => .error e
    | .ok n =>
      .ok { w with
              reserved := w.reserved ++ [(key, ⟨w.array.length, pf⟩)]
              array := w.array ++ List.replicate n 0 }

/-- `BinaryWriter.mark_reserved_offset`: refuse duplicate keys and record
`(offset, parsed fmt)` without touching the array. -/
def BinaryWriter.markReservedOffset (w : BinaryWriter) (name : String) (f : FmtStr)
    (offset : Nat) (obj : Option String) : Except String BinaryWriter :=
  let key := reserveName name obj
  if (w.reserved.lookup key).isSome then
    .error "Name is already reserved in BinaryWriter."
  else
    .ok { w with reserved :=
      w.reserved ++ [(key, ⟨offset, parseFmt w.defaultByteOrder w.longVarints f⟩)] }

/-- In-place overwrite of a byte span, the Python slice assignment
`self._array[offset:offset + len(packed)] = packed`. -/
def writeAt (arr : List Nat) (offset : Nat) (packed : List Nat) : List Nat :=
  arr.take offset ++ packed ++ arr.drop (offset + packed.length)

/-- `BinaryWriter.fill`: empty value list and unknown keys are errors; the
values are re-encoded with the reservation's stored wire format; on a
`struct.error` the method raises before any mutation; on success the span
is overwritten and the reservation is removed. -/
def BinaryWriter.fill (w : BinaryWriter) (name : String) (values : List BinValue)
    (obj : Option String) : Except String BinaryWriter :=
  if values = [] then
    .error "No values given to fill."
  else
    let key := reserveName name obj
    match w.reserved.lookup key with
    | none => .error "Name is not reserved in BinaryWriter."
    | some res =>
      match structPack (res.fmt.bo.getD w.defaultByteOrder).isBig res.fmt.toks values with
      | .error _ => .error "Error occurred when packing values to reserved offset."
      | .ok packed =>
        .ok { w with
                array := writeAt w.array res.offset packed
                reserved := w.reserved.filter (fun p => p.1 != key) }

/-- The error message of `BinaryWriter.__bytes__`, which joins every
outstanding reservation key. -/
def unfilledMessage (keys : List String) : String :=
  "Reserved BinaryWriter offsets not filled: " ++ String.intercalate ", " keys

/-- `BinaryWriter.__bytes__`: finalization fails while any reservation
remains, naming every outstanding key. -/
def BinaryWriter.toBytesFinal (w : BinaryWriter) : Except String (List Nat) :=
  match w.reserved with
  | [] => .ok w.array
  | r :: rs => .error (unfilledMessage ((r :: rs).map Prod.fst))

/-- The bit string `format(value, f"0{bitCount}b")[::-1]` built by the bit
coalescer: binary digits of `value`, least-significant bit first, padded to
`bitCount` digits (Python renders `0` with width `0` as one digit). -/
def bitsLSB (value bitCount : Nat) : List Bool :=
  if bitCount = 0 then [false] else (List.range bitCount).map value.testBit

/-- `int(bits[::-1], 2)` of a least-significant-bit-first bit string. -/
def bitsValue : List Bool → Nat
  | [] => 0
  | b :: bs => (if b then 1 else 0) + 2 * bitsValue bs

/-- State of `BitFieldWriter` (`constrata/streams/bits.py`): the pending
bit accumulator (LSB-first) and the active storage-unit format (`none`
models the empty string). -/
structure BitFieldWriter where
  field : List Bool
  fmt : Option FmtTok

/-- A fresh / cleared bit writer. -/
def BitFieldWriter.cleared : BitFieldWriter := ⟨[], none⟩

/-- `_BitFieldBase.empty`: true when no bits are pending. -/
def BitFieldWriter.empty (bw : BitFieldWriter) : Bool := bw.field.isEmpty

/-- `BitFieldWriter.finish_field_buffer`: flush the partial accumulator as
one integer appended to `buffer`, clear the state, and return the unit
format that was flushed.  The `format(self._field, f"0<{size}")` padding in
the source appends zeros above the most significant bit and so never
changes the flushed integer; `struct.calcsize(self._fmt)` raises on an
unresolved `v`/`V` unit format.  Callers only invoke this with a pending
accumulator, so a missing unit format defaults to `B`. -/
def BitFieldWriter.finishFieldBuffer (bw : BitFieldWriter) (buffer : List BinValue) :
    Except String (BitFieldWriter × List BinValue × FmtTok) :=
  match (bw.fmt.getD .u8).byteSize with
  | none => .error "struct.error: bad char in struct format"
  | some _ => .ok (⟨[], none⟩, buffer ++ [.vint (bitsValue bw.field)], bw.fmt.getD .u8)

/-- `BitFieldWriter.finish_field`: like `finish_field_buffer` but packs the
flushed unit straight into a `BinaryWriter`; a no-op when empty. -/
def BitFieldWriter.finishField (bw : BitFieldWriter) (w : BinaryWriter) :
    Except String (BitFieldWriter × BinaryWriter) :=
  if bw.field.isEmpty then
    .ok (bw, w)
  else
    match (bw.fmt.getD .u8).byteSize with
    | none => .error "struct.error: bad char in struct format"
    | some _ =>
      match w.pack ⟨none, [bw.fmt.getD .u8]⟩ [.vint (bitsValue bw.field)] with
      | .error e => .error e
      | .ok w2 => .ok (⟨[], none⟩, w2)

/-- `BitFieldWriter.write_to_buffer`.  The overflow guard
`value >= 2 ** bit_count` raises before anything is emitted.  When the unit
format changes, a non-empty accumulator is flushed first; the source then
adds `self._fmt` to `added_fmt` only after `finish_field_buffer` has
cleared it, so the flushed unit contributes no token to the returned
format (reproduced faithfully). -/
def BitFieldWriter.writeToBuffer (bw : BitFieldWriter) (buffer : List BinValue)
    (value bitCount : Nat) (fmt : FmtTok) :
    Except String (BitFieldWriter × List BinValue × List FmtTok) :=
  if 2 ^ bitCount ≤ value then
    .error "Value of new bit field value is too large for given bit count."
  else
    match
      (if some fmt ≠ bw.fmt then
        if bw.fmt.isSome && !bw.field.isEmpty then
          match bw.finishFieldBuffer buffer with
          | .error e => .error e
          | .ok (bw2, buf2, _) => .ok (⟨bw2.field, some fmt⟩, buf2, true)
        else
          .ok (⟨bw.field, some fmt⟩, buffer, true)
      else
        .ok (bw, buffer, false) :
      Except String (BitFieldWriter × List BinValue × Bool))
    with
    | .error e => .error e
    | .ok (bw1, buf1, newFmt) =>
      let field2 := bw1.field ++ bitsLSB value bitCount
      match fmt.byteSize with
      | none => .error "struct.error: bad char in struct format"
      | some sz =>
        let maxBits := 8 * sz
        if maxBits ≤ field2.length then
          if newFmt then
            .error "New bit field was exceeded before previous bit field could be written."
          else
            .ok (⟨field2.drop maxBits, bw1.fmt⟩,
              buf1 ++ [.vint (bitsValue (field2.take maxBits))], [fmt])
        else
          .ok (⟨field2, bw1.fmt⟩, buf1, [])

/-- `BitFieldWriter.write`: same coalescing logic, flushing completed units
straight into a `BinaryWriter`. -/
def BitFieldWriter.write (bw : BitFieldWriter) (w : BinaryWriter)
    (value bitCount : Nat) (fmt : FmtTok) :
    Except String (BitFieldWriter × BinaryWriter) :=
  if 2 ^ bitCount ≤ value then
    .error "Value of new bit field value is too large for given bit count."
  else
    match
      (if some fmt ≠ bw.fmt then
        if bw.fmt.isSome then
          match bw.finishField w with
          | .error e => .error e
          | .ok (bw2, w2) => .ok (⟨bw2.field, some fmt⟩, w2, true)
        else
          .ok (⟨bw.field, some fmt⟩, w, true)
      else
        .ok (bw, w, false) :
      Except String (BitFieldWriter × BinaryWriter × Bool))
    with
    | .error e => .error e
    | .ok (bw1, w1, newFmt) =>
      let field2 := bw1.field ++ bitsLSB value bitCount
      match fmt.byteSize with
      | none => .error "struct.error: bad char in struct format"
      | some sz =>
        let maxBits := 8 * sz
        if maxBits ≤ field2.length then
          if newFmt then
            .error "New bit field was exceeded before previous bit field could be written."
          else
            match w1.pack ⟨none, [fmt]⟩ [.vint (bitsValue (field2.take maxBits))] with
            | .error e => .error e
            | .ok w2 => .ok (⟨field2.drop maxBits, bw1.fmt⟩, w2)
        else
          .ok (⟨field2, bw1.fmt⟩, w1)

/-- State of `BitFieldReader`: pending bits of the last consumed unit
(LSB-first), the active unit format, and the bit offset already consumed.
The source does not reset `_offset` when a fresh unit is consumed because
of a format switch or exhaustion; this is reproduced faithfully. -/
structure BitFieldReader where
  field : List Bool
  fmt : Option FmtTok
  offset : Nat

/-- A fresh / cleared bit reader (`clear()`). -/
def BitFieldReader.cleared : BitFieldReader := ⟨[], none, 0⟩

/-- `_BitFieldBase.empty` for the reader. -/
def BitFieldReader.empty (br : BitFieldReader) : Bool := br.field.isEmpty

/-- `BitFieldReader.read`: consume a fresh unit from the reader when the
accumulator is empty, the unit format differs, or the request would
overrun; then slice `bit_count` bits at the current offset.  Negative unit
values are not meaningfully supported by the source (string formatting of
a negative integer); they are modelled via `Int.toNat`. -/
def BitFieldReader.read (br : BitFieldReader) (r : BinaryReader)
    (bitCount : Nat) (fmt : FmtTok) :
    Except String (Nat × BinaryReader × BitFieldReader) :=
  match fmt.byteSize with
  | none => .error "struct.error: bad char in struct format"
  | some sz =>
    let maxBits := 8 * sz
    match
      (if br.field.isEmpty || (some fmt != br.fmt) || decide (maxBits < br.offset + bitCount) then
        match r.unpack ⟨none, [fmt]⟩ with
        | .error e => .error e
        | .ok (vals, r2) =>
          match vals with
          | [v] =>
            match v.intValue? with
            | some i => .ok ((List.range maxBits).map i.toNat.testBit, r2)
            | none => .error "TypeError: cannot format value as binary"
          | _ => .error "ValueError: more than one value unpacked"
      else
        .ok (br.field, r) :
      Except String (List Bool × BinaryReader))
    with
    | .error e => .error e
    | .ok (field, r2) =>
      let value := bitsValue ((field.drop br.offset).take bitCount)
      let offset2 := br.offset + bitCount
      if offset2 % maxBits = 0 then
        .ok (value, r2, ⟨[], some fmt, 0⟩)
      else
        .ok (value, r2, ⟨field, some fmt, offset2⟩)

/-- `BitFieldReader.read_list_buffer`: same logic, but a fresh unit is
popped from the end of `buffer`, with the source's range check against
`PRIMITIVE_FMT_SIZE_MINMAX[fmt][1][1]` (a `TypeError` for formats whose
bounds entry is `None`). -/
def BitFieldReader.readListBuffer (br : BitFieldReader) (buffer : List BinValue)
    (bitCount : Nat) (fmt : FmtTok) :
    Except String (Nat × List BinValue × BitFieldReader) :=
  match fmt.byteSize with
  | none => .error "struct.error: bad char in struct format"
  | some sz =>
    let maxBits := 8 * sz
    match
      (if br.field.isEmpty || (some fmt != br.fmt) || decide (maxBits < br.offset + bitCount) then
        match buffer.getLast? with
        | none => .error "IndexError: pop from empty list"
        | some v =>
          match v.intValue? with
          | none => .error "TypeError: cannot format value as binary"
          | some i =>
            match fmt.intSpec with
            | none => .error "TypeError: NoneType is not subscriptable"
            | some (n, signed) =>
              if intHi n signed < i then
                .error "BitFieldReader popped value which is too large for fmt."
              else
                .ok ((List.range maxBits).map i.toNat.testBit, buffer.dropLast)
      else
        .ok (br.field, buffer) :
      Except String (List Bool × List BinValue))
    with
    | .error e => .error e
    | .ok (field, buf2) =>
      let value := bitsValue ((field.drop br.offset).take bitCount)
      let offset2 := br.offset + bitCount
      if offset2 % maxBits = 0 then
        .ok (value, buf2, ⟨[], some fmt, 0⟩)
      else
        .ok (value, buf2, ⟨field, some fmt, offset2⟩)

/-- A compiled field contract: `BinaryMetadata` (fmt token, assertion set,
convert-in/out hooks, bit count, skip predicate) together with the field
name assigned by `BinaryStruct._initialize_struct_cls`.  The modelled
fragment gives every field a single wire token. -/
structure FieldSchema where
  name : String
  fmt : FmtTok
  asserted : List BinValue
  unpackFunc : Option (BinValue → BinValue)
  packFunc : Option (BinValue → BinValue)
  bitCount : Int
  shouldSkip : Option (Option Bool → List (String × Option BinValue) → Bool)

/-- `BinaryMetadata.__post_init__`: the precomputed lone asserted value. -/
def FieldSchema.singleAsserted (f : FieldSchema) : Option BinValue :=
  if f.asserted ≠ [] ∧ f.asserted.length = 1 then f.asserted.head? else none

/-- `BinaryMetadata.get_unpacker`: the generated function pops the next raw
value from the end of `struct_output`, applies the convert-in hook when one
is configured, then checks the assertion set when one is configured. -/
def FieldSchema.getUnpacker (m : FieldSchema) (structOutput : List BinValue) :
    Except String (BinValue × List BinValue) :=
  match structOutput.getLast? with
  | none => .error "IndexError: pop from empty list"
  | some v0 =>
    let rest := structOutput.dropLast
    let v :=
      match m.unpackFunc with
      | some f => f v0
      | none => v0
    if m.asserted ≠ [] ∧ v ∉ m.asserted then
      .error "Field read value is not an asserted value."
    else
      .ok (v, rest)

/-- `BinaryMetadata.get_packer`: the generated function checks the supplied
value against the assertion set when one is configured, then applies the
convert-out hook when one is configured, and appends the wire value to
`struct_input`. -/
def FieldSchema.getPacker (m : FieldSchema) (structInput : List BinValue) (v : BinValue) :
    Except String (List BinValue) :=
  if m.asserted ≠ [] ∧ v ∉ m.asserted then
    .error "Field value is not an asserted value."
  else
    let v2 :=
      match m.packFunc with
      | some f => f v
      | none => v
    .ok (structInput ++ [v2])

/-- Loop of `BinaryStruct.get_full_fmt` over `(full_fmt, used_bits,
bit_field_max)`.  The source compares `metadata.fmt != full_fmt[-1]` on
format characters; within the modelled fragment (bit fields carry integer
unit formats) this agrees with token equality. -/
def getFullFmtLoop (lv : Option Bool)
    (fieldValues : Option (List (String × Option BinValue))) :
    List FieldSchema → List FmtTok → Nat → Nat → List FmtTok
  | [], fullFmt, _, _ => fullFmt
  | f :: rest, fullFmt, usedBits, bitFieldMax =>
    if (match fieldValues, f.shouldSkip with
        | some vals, some p => p lv vals
        | _, _ => false) then
      getFullFmtLoop lv fieldValues rest fullFmt usedBits bitFieldMax
    else if f.bitCount = -1 then
      getFullFmtLoop lv fieldValues rest (fullFmt ++ [f.fmt]) 0 0
    else if fullFmt = [] ∨ bitFieldMax = 0 ∨ some f.fmt ≠ fullFmt.getLast? then
      getFullFmtLoop lv fieldValues rest (fullFmt ++ [f.fmt]) f.bitCount.toNat
        (8 * (f.fmt.byteSize.getD 0))
    else if bitFieldMax < usedBits + f.bitCount.toNat then
      getFullFmtLoop lv fieldValues rest (fullFmt ++ [f.fmt])
        (f.bitCount.toNat - (bitFieldMax - usedBits)) bitFieldMax
    else
      getFullFmtLoop lv fieldValues rest fullFmt (usedBits + f.bitCount.toNat) bitFieldMax

/-- `BinaryStruct.get_full_fmt`. -/
def getFullFmt (s : List FieldSchema) (lv : Option Bool)
    (fieldValues : Option (List (String × Option BinValue))) : List FmtTok :=
  getFullFmtLoop lv fieldValues s [] 0 0

/-- `BinaryStruct.get_size`: sizing from the schema's full format plus byte
order and width flag; varint tokens require the flag and then count 8 or 4
bytes.  (`byte_order` only matters for native auto-alignment, which the
byte model does not reproduce; standard sizes are used.) -/
def getSize (s : List FieldSchema) (_byteOrder : ByteOrder) (lv : Option Bool) :
    Except String Nat :=
  let fullFmt := getFullFmt s none none
  if fullFmt.any (fun t => t == FmtTok.varint || t == FmtTok.varuint) then
    match lv with
    | none => .error "Struct has varint fields. long_varints must be set to get size."
    | some b => calcsize (fullFmt.map (resolveVar (some b)))
  else
    calcsize fullFmt

/-- Loop state of `BinaryStruct.to_writer`: the format and value batch for
the single final pack call, the bit coalescer, and the writer (which
accumulates reservations during the loop). -/
structure PackState where
  fullFmt : List FmtTok
  structInput : List BinValue
  bitWriter : BitFieldWriter
  writer : BinaryWriter

/-- C alignment of a token in CPython's native struct mode: numeric types
align to their own size, `?` and `s` to one byte, and unresolved `v`/`V`
have none (bad char). -/
def FmtTok.align : FmtTok → Option Nat
  | .tbool => some 1
  | .u8 | .i8 => some 1
  | .u16 | .i16 => some 2
  | .u32 | .i32 => some 4
  | .u64 | .i64 => some 8
  | .tbytes _ => some 1
  | .varint | .varuint => none

/-- Round `off` up to the next multiple of `a`. -/
def alignUp (off a : Nat) : Nat :=
  off + (a - off % a) % a

/-- `struct.calcsize` of an UNPREFIXED format string: CPython evaluates it
in native mode, padding each item to its C alignment (item sizes coincide
with the standard sizes on CPython's platforms); raises on `v`/`V`. -/
def calcsizeNativeFrom : Nat → List FmtTok → Except String Nat
  | off, [] => .ok off
  | off, t :: ts =>
    match t.align, t.byteSize with
    | some a, some n => calcsizeNativeFrom (alignUp off a + n) ts
    | _, _ => .error "struct.error: bad char in struct format"

def calcsizeNative (ts : List FmtTok) : Except String Nat :=
  calcsizeNativeFrom 0 ts

/-- The `get_fmt_size` closure of `to_writer`: size of the format batched
so far; with an unresolved `long_varints` it falls back to a raw
`struct.calcsize` on the UNPREFIXED batched format — native-aligned, and
raising on `v`/`V` — while the final pack call and the placeholder bytes
use the byte-order-prefixed format (standard sizes); otherwise it uses the
writer's `calcsize` (prefixed, hence standard sizes and the writer's own
`long_varints`). -/
def getFmtSize (w : BinaryWriter) (lv : Option Bool) (fullFmt : List FmtTok) :
    Except String Nat :=
  if fullFmt = [] then .ok 0
  else
    match lv with
    | none => calcsizeNative fullFmt
    | some _ => w.calcsize ⟨none, fullFmt⟩

/-- Run a field's compiled packer and extend the batched format, the shared
tail of the normal-field branches of the `to_writer` loop. -/
def packFieldValue (f : FieldSchema) (st : PackState) (v : BinValue) :
    Except String PackState :=
  match f.getPacker st.structInput v with
  | .error e => .error e
  | .ok input2 => .ok { st with structInput := input2, fullFmt := st.fullFmt ++ [f.fmt] }

/-- Python `field_value not in field_metadata.asserted` where the field
value may be `None` (which is never a member of an assertion set). -/
def optNotMem (v : Option BinValue) (l : List BinValue) : Bool :=
  match v with
  | some x => decide (x ∉ l)
  | none => true

/-- One iteration of the `to_writer` field loop: skip predicate, pending
bit-accumulator flush, bit-field routing, reservation of absent values
without a lone asserted value, else the compiled packer.  The bit-field
branch checks the assertion set on the raw field value (where Python
`None` is never a member) before the coalescer's overflow guard. -/
def toWriterStep (bo : ByteOrder) (lv : Option Bool) (reserveObj : String)
    (startOffset : Nat) (fieldValues : List (String × Option BinValue))
    (st : PackState) (f : FieldSchema) (value : Option BinValue) :
    Except String PackState :=
  if (match f.shouldSkip with
      | some p => p lv fieldValues
      | none => false) = true then
    .ok st
  else
    match
      (if st.bitWriter.empty = false ∧ f.bitCount = -1 then
        match st.bitWriter.finishFieldBuffer st.structInput with
        | .error e => .error e
        | .ok (bw2, input2, tok) =>
          .ok { st with bitWriter := bw2, structInput := input2, fullFmt := st.fullFmt ++ [tok] }
      else
        .ok st :
      Except String PackState)
    with
    | .error e => .error e
    | .ok st1 =>
      if f.bitCount ≠ -1 then
        if f.asserted ≠ [] ∧ optNotMem value f.asserted = true then
          .error "Field value is not an asserted value."
        else
          match value with
          | none => .error "TypeError: unorderable types NoneType and int"
          | some v =>
            match v.intValue? with
            | none => .error "TypeError: cannot format value as binary"
            | some i =>
              if i < 0 then
                .error "ValueError: negative bit field value"
              else
                match st1.bitWriter.writeToBuffer st1.structInput i.toNat f.bitCount.toNat f.fmt with
                | .error e => .error e
                | .ok (bw2, input2, added) =>
                  .ok { st1 with
                          bitWriter := bw2
                          structInput := input2
                          fullFmt := st1.fullFmt ++ added }
      else
        match value, f.singleAsserted with
        | none, none =>
          match getFmtSize st1.writer lv st1.fullFmt with
          | .error e => .error e
          | .ok sizeSoFar =>
            let reserveOffset := startOffset + sizeSoFar
            let reserveFmt : FmtStr := ⟨some bo, [f.fmt]⟩
            match st1.writer.markReservedOffset f.name reserveFmt reserveOffset
                (some reserveObj) with
            | .error e => .error e
            | .ok w2 =>
              match w2.calcsize reserveFmt with
              | .error e => .error e
              | .ok nullSize =>
                .ok { st1 with
                        writer := w2
                        structInput := st1.structInput ++ [.vbytes (List.replicate nullSize 0)]
                        fullFmt := st1.fullFmt ++ [.tbytes nullSize] }
        | none, some sv => packFieldValue f st1 sv
        | some v, _ => packFieldValue f st1 v

/-- The `to_writer` field loop. -/
def toWriterLoop (bo : ByteOrder) (lv : Option Bool) (reserveObj : String)
    (startOffset : Nat) (fieldValues : List (String × Option BinValue)) :
    List (FieldSchema × Option BinValue) → PackState → Except String PackState
  | [], st => .ok st
  | (f, v) :: rest, st =>
    match toWriterStep bo lv reserveObj startOffset fieldValues st f v with
    | .error e => .error e
    | .ok st2 => toWriterLoop bo lv reserveObj startOffset fieldValues rest st2

/-- `BinaryStruct.to_writer` in its `writer=None` form: byte order falls
back from the instance to `get_default_byte_order()` (little-endian); with
no writer supplied `long_varints` is taken from the instance and may stay
`None`; the fresh `BinaryWriter` is constructed with its own defaults
(`long_varints=True`), and the loop ends in the single bulk pack call.  A
trailing partial bit accumulator is not flushed (as in the source). -/
def toWriter (s : List FieldSchema) (values : List (Option BinValue))
    (selfByteOrder : Option ByteOrder) (selfLongVarints : Option Bool)
    (reserveObj : String) : Except String BinaryWriter :=
  let byteOrder := selfByteOrder.getD ByteOrder.littleEndian
  let lv := selfLongVarints
  let w0 := mkBinaryWriter byteOrder
  let fieldValues := (s.map FieldSchema.name).zip values
  let startOffset := w0.array.length
  match toWriterLoop byteOrder lv reserveObj startOffset fieldValues
      (s.zip values) ⟨[], [], BitFieldWriter.cleared, w0⟩ with
  | .error e => .error e
  | .ok st => st.writer.pack ⟨none, st.fullFmt⟩ st.structInput

/-- `BinaryStruct.to_bytes`: pack through `to_writer` and refuse to
finalize while any field was left reserved. -/
def toBytes (s : List FieldSchema) (values : List (Option BinValue))
    (selfByteOrder : Option ByteOrder) (selfLongVarints : Option Bool)
    (reserveObj : String) : Except String (List Nat) :=
  match toWriter s values selfByteOrder selfLongVarints reserveObj with
  | .error e => .error e
  | .ok w =>
    match w.reserved with
    | [] => w.toBytesFinal
    | _ :: _ => .error "BinaryStruct cannot fill all fields on its own. Use to_writer."

/-- `BinaryStruct.fill`: fill a writer key reserved under this instance's
identity. -/
def structFill (w : BinaryWriter) (reserveObj : String) (fieldName : String)
    (values : List BinValue) : Except String BinaryWriter :=
  w.fill fieldName values (some reserveObj)

/-- One field of the `from_bytes` loop: bit fields go through the coalescer
(from the reader in careful mode, from the batched output in fast mode)
followed by the explicit assertion check; normal fields go through the
compiled unpacker (on a single-field read in careful mode, on the batched
output in fast mode).  The `field_type(...)` cast is not modelled: bit
values stay integers. -/
def fromBytesField (f : FieldSchema) (so : Option (List BinValue))
    (r : BinaryReader) (br : BitFieldReader) :
    Except String (BinValue × Option (List BinValue) × BinaryReader × BitFieldReader) :=
  if f.bitCount ≠ -1 then
    match so with
    | none =>
      match br.read r f.bitCount.toNat f.fmt with
      | .error e => .error e
      | .ok (v, r2, br2) =>
        if f.asserted ≠ [] ∧ BinValue.vint v ∉ f.asserted then
          .error "Bit field value is not an asserted value."
        else
          .ok (.vint v, none, r2, br2)
    | some out =>
      match br.readListBuffer out f.bitCount.toNat f.fmt with
      | .error e => .error e
      | .ok (v, out2, br2) =>
        if f.asserted ≠ [] ∧ BinValue.vint v ∉ f.asserted then
          .error "Bit field value is not an asserted value."
        else
          .ok (.vint v, some out2, r, br2)
  else
    match so with
    | none =>
      match r.unpack ⟨none, [f.fmt]⟩ with
      | .error e => .error e
      | .ok (vals, r2) =>
        match f.getUnpacker vals with
        | .error e => .error e
        | .ok (v, _) => .ok (v, none, r2, br)
    | some out =>
      match f.getUnpacker out with
      | .error e => .error e
      | .ok (v, out2) => .ok (v, some out2, r, br)

/-- The `from_bytes` field loop: an unfinished bit accumulator is discarded
when a normal field follows; a skip predicate sees the `long_varints` flag
and the values decoded so far, and a skipped field stores `None` and
consumes nothing. -/
def fromBytesLoop (lv : Option Bool) :
    List FieldSchema → Option (List BinValue) → BinaryReader → BitFieldReader →
    List (String × Option BinValue) →
    Except String (List (String × Option BinValue) × BinaryReader)
  | [], _, r, _, acc => .ok (acc, r)
  | f :: rest, so, r, br, acc =>
    let br1 := if f.bitCount = -1 ∧ br.empty = false then BitFieldReader.cleared else br
    if (match f.shouldSkip with
        | some p => p lv acc
        | none => false) = true then
      fromBytesLoop lv rest so r br1 (acc ++ [(f.name, none)])
    else
      match fromBytesField f so r br1 with
      | .error e => .error e
      | .ok (v, so2, r2, br2) =>
        fromBytesLoop lv rest so2 r2 br2 (acc ++ [(f.name, some v)])

/-- `BinaryStruct.from_bytes` on raw bytes: byte order defaults to
little-endian, `long_varints` may stay `None`, and the transient
`BinaryReader` is built with its constructor defaults (`long_varints=True`).
Without any skip predicate the whole record is decoded by one bulk unpack
whose output is reversed and popped per field; with one, fields are decoded
one at a time.  Returns the decoded `(name, value)` pairs and the final
reader position. -/
def fromBytes (s : List FieldSchema) (data : List Nat)
    (byteOrderArg : Option ByteOrder) (longVarintsArg : Option Bool) :
    Except String (List (String × Option BinValue) × Nat) :=
  let byteOrder := byteOrderArg.getD ByteOrder.littleEndian
  let lv := longVarintsArg
  let reader : BinaryReader := ⟨data, 0, byteOrder, some true⟩
  let fullFmt := getFullFmt s none none
  let careful := s.any (fun f => f.shouldSkip.isSome)
  match
    (if careful = false then
      match reader.unpack ⟨none, fullFmt⟩ with
      | .error e => .error e
      | .ok (vals, r2) => .ok (some vals.reverse, r2)
    else
      .ok (none, reader) :
    Except String (Option (List BinValue) × BinaryReader))
  with
  | .error e => .error e
  | .ok (so, r1) =>
    match fromBytesLoop lv s so r1 BitFieldReader.cleared [] with
    | .error e => .error e
    | .ok (vals, r2) => .ok (vals, r2.pos)

/-- `encoding.replace("-", "")` of the null-terminated text helpers,
as a character list. -/
def normEnc (e : String) : List Char :=
  e.toList.filter (fun c => c != '-')

/-- Terminator appended by `BinaryWriter.pack_z_string`: two null bytes
when `encoding.replace("-", "").startswith("utf16")`, else one. -/
def packZStringTerminator (encoding : String) : List Nat :=
  if "utf16".toList.isPrefixOf (normEnc encoding) then [0, 0] else [0]

/-- `BinaryWriter.pack_z_string`: append the encoded text and the
width-matched terminator.  Text encoding itself is outside the byte model,
so the encoded bytes are a parameter. -/
def BinaryWriter.packZString (w : BinaryWriter) (encodedValue : List Nat)
    (encoding : String) : BinaryWriter :=
  { w with array := w.array ++ encodedValue ++ packZStringTerminator encoding }

/-- Bytes consumed per character by `read_null_terminated_bytes`
(`constrata/utilities.py`): two when the encoding is given and
`encoding.replace("-", "").startswith("utf16")`, else one; its terminator
is that many null bytes. -/
def readNullTerminatedBytesPerChar (encoding : Option String) : Nat :=
  match encoding with
  | some e => if "utf16".toList.isPrefixOf (normEnc e) then 2 else 1
  | none => 1

/-- Bytes consumed per character by `read_chars_from_buffer`
(`constrata/utilities.py`), which tests
`encoding.replace("-", "").startswith("utf16le")`. -/
def readCharsFromBufferBytesPerChar (encoding : Option String) : Nat :=
  match encoding with
  | some e => if "utf16le".toList.isPrefixOf (normEnc e) then 2 else 1
  | none => 1

/-- The plain-field fragment of the engine theorems: not bit-packed, no
skip predicate, no conversion hooks. -/
def plainField (f : FieldSchema) : Bool :=
  f.bitCount == -1 && f.shouldSkip.isNone && f.unpackFunc.isNone && f.packFunc.isNone

/-- A field value valid for packing: in `struct.pack` range for the token
as the fresh writer resolves it (`long_varints=True`), and in the
assertion set when one is configured. -/
def validFieldValue (f : FieldSchema) (v : BinValue) : Bool :=
  validTokValue (resolveVar (some true) f.fmt) v &&
    (f.asserted.isEmpty || decide (v ∈ f.asserted))

/-! ## Supporting lemmas -/

theorem natLEBytes_length (n v : Nat) : (natLEBytes n v).length = n := by
  induction n generalizing v with
  | zero => rfl
  | succ n ih => simp [natLEBytes, ih]

theorem natLEBytes_lt (n v : Nat) : ∀ b ∈ natLEBytes n v, b < 256 := by
  induction n generalizing v with
  | zero => simp [natLEBytes]
  | succ n ih =>
    intro b hb
    simp only [natLEBytes, List.mem_cons] at hb
    rcases hb with h | h
    · omega
    · exact ih _ _ h

theorem natFromLE_natLEBytes (n v : Nat) :
    natFromLE (natLEBytes n v) = v % 2 ^ (8 * n) := by
  induction n generalizing v with
  | zero => simp [natLEBytes, natFromLE, Nat.mod_one]
  | succ n ih =>
    have hpow : 2 ^ (8 * (n + 1)) = 256 * 2 ^ (8 * n) := by
      rw [Nat.mul_add, Nat.pow_add]
      ring
    rw [natLEBytes, natFromLE, ih, hpow, Nat.mod_mul]

theorem orient_orient (big : Bool) (l : List Nat) : orient big (orient big l) = l := by
  cases big <;> simp [orient]

theorem orient_length (big : Bool) (l : List Nat) : (orient big l).length = l.length := by
  cases big <;> simp [orient]

theorem orient_mem (big : Bool) (l : List Nat) : ∀ b ∈ orient big l, b ∈ l := by
  cases big <;> simp [orient]

/-- `struct.pack` then `struct.unpack` of one in-range integer is the
identity; the encoding has exactly `n` bytes, all below 256. -/
theorem encodeInt_spec (big : Bool) (n : Nat) (signed : Bool) (i : Int)
    (hn : 0 < n) (hlo : intLo n signed ≤ i) (hhi : i ≤ intHi n signed) :
    ∃ bs, encodeInt big n signed i = .ok bs ∧ bs.length = n ∧
      (∀ b ∈ bs, b < 256) ∧ decodeInt big n signed bs = i := by
  refine ⟨orient big (natLEBytes n (i % (2 ^ (8 * n))).toNat), ?_, ?_, ?_, ?_⟩
  · rw [encodeInt, if_pos ⟨hlo, hhi⟩]
  · rw [orient_length, natLEBytes_length]
  · intro b hb
    exact natLEBytes_lt _ _ _ (orient_mem _ _ _ hb)
  · obtain ⟨k, hk⟩ : ∃ k, 8 * n = k + 1 := ⟨8 * n - 1, by omega⟩
    have hk1 : 8 * n - 1 = k := by omega
    have hMpos : (0 : Int) < 2 ^ (8 * n) := by positivity
    have hM2 : (2 : Int) ^ (8 * n) = 2 * 2 ^ k := by
      rw [hk]
      ring
    have hhalfcast : ((2 ^ k : Nat) : Int) = (2 : Int) ^ k := by
      push_cast
      ring
    have hemod0 : 0 ≤ i % (2 ^ (8 * n) : Int) := Int.emod_nonneg i (by omega)
    have hemodlt : i % (2 ^ (8 * n) : Int) < 2 ^ (8 * n) := Int.emod_lt_of_pos i hMpos
    have hmlt : (i % (2 ^ (8 * n) : Int)).toNat < 2 ^ (8 * n) := by
      have : ((2 ^ (8 * n) : Nat) : Int) = (2 : Int) ^ (8 * n) := by push_cast; ring
      omega
    simp only [decodeInt, orient_orient, natFromLE_natLEBytes, hk1,
      Nat.mod_eq_of_lt hmlt]
    have hcastM : ((2 ^ (8 * n) : Nat) : Int) = (2 : Int) ^ (8 * n) := by push_cast; ring
    have hcast : ((i % (2 ^ (8 * n) : Int)).toNat : Int) = i % (2 ^ (8 * n) : Int) := by
      omega
    cases signed with
    | true =>
      simp [intLo, hk1] at hlo
      simp [intHi, hk1] at hhi
      by_cases hnonneg : 0 ≤ i
      · have hemod : i % (2 ^ (8 * n) : Int) = i := Int.emod_eq_of_lt hnonneg (by omega)
        have hcond : ¬ (2 ^ k ≤ (i % (2 ^ (8 * n) : Int)).toNat) := by omega
        rw [if_neg (fun h => hcond h.2)]
        omega
      · have hemod : i % (2 ^ (8 * n) : Int) = i + 2 ^ (8 * n) := by
          have h1 : (i + 2 ^ (8 * n) * 1) % (2 ^ (8 * n) : Int) = i % (2 ^ (8 * n) : Int) :=
            Int.add_mul_emod_self_left i (2 ^ (8 * n)) 1
          rw [mul_one] at h1
          rw [← h1]
          exact Int.emod_eq_of_lt (by omega) (by omega)
        have hcond : 2 ^ k ≤ (i % (2 ^ (8 * n) : Int)).toNat := by omega
        rw [if_pos ⟨rfl, hcond⟩]
        omega
    | false =>
      simp only [intLo, Bool.false_eq_true, if_false] at hlo
      simp only [intHi, Bool.false_eq_true, if_false] at hhi
      rw [if_neg (by simp)]
      have hemod : i % (2 ^ (8 * n) : Int) = i := Int.emod_eq_of_lt hlo (by omega)
      omega

/-- Packaging of `encodeInt_spec` in the shape of the integer cases of
`encodeTok_spec`. -/
theorem encodeTok_int_case (big : Bool) (n : Nat) (signed : Bool) (i : Int)
    (hn : 0 < n) (hlo : intLo n signed ≤ i) (hhi : i ≤ intHi n signed) :
    ∃ bs, encodeInt big n signed i = .ok bs ∧ some bs.length = some n ∧
      (∀ b ∈ bs, b < 256) ∧ BinValue.vint (decodeInt big n signed bs) = .vint i := by
  obtain ⟨bs, h1, h2, h3, h4⟩ := encodeInt_spec big n signed i hn hlo hhi
  exact ⟨bs, h1, by rw [h2], h3, by rw [h4]⟩

/-- `struct.pack` then `struct.unpack` of one valid token value is the
identity; the encoding has exactly the token size in bytes. -/
theorem encodeTok_spec (big : Bool) (t : FmtTok) (v : BinValue)
    (hv : validTokValue t v = true) :
    ∃ bs, encodeTok big t v = .ok bs ∧ some bs.length = t.byteSize ∧
      (∀ b ∈ bs, b < 256) ∧ decodeTok big t bs = v := by
  cases t with
  | tbool =>
    cases v with
    | vbool b =>
      refine ⟨[if b then 1 else 0], rfl, rfl, ?_, ?_⟩
      · intro x hx
        simp only [List.mem_singleton] at hx
        subst hx
        cases b <;> simp
      · cases b <;> simp [decodeTok, encodeTok, BinValue.truthy]
    | vint i => simp [validTokValue, FmtTok.intSpec] at hv
    | vbytes bs => simp [validTokValue] at hv
  | tbytes n =>
    cases v with
    | vbool b => simp [validTokValue] at hv
    | vint i => simp [validTokValue, FmtTok.intSpec] at hv
    | vbytes bs =>
      simp only [validTokValue, Bool.and_eq_true, beq_iff_eq, List.all_eq_true,
        decide_eq_true_eq] at hv
      obtain ⟨hlen, hmem⟩ := hv
      refine ⟨bs, ?_, ?_, hmem, ?_⟩
      · simp [encodeTok, hlen, List.take_of_length_le (le_of_eq hlen)]
      · simp [FmtTok.byteSize, hlen]
      · simp [decodeTok]
  | varint => cases v <;> simp [validTokValue, FmtTok.intSpec] at hv
  | varuint => cases v <;> simp [validTokValue, FmtTok.intSpec] at hv
  | u8 =>
    cases v with
    | vbool b => simp [validTokValue] at hv
    | vbytes bs => simp [validTokValue] at hv
    | vint i =>
      simp only [validTokValue, FmtTok.intSpec, Bool.and_eq_true, decide_eq_true_eq] at hv
      exact encodeTok_int_case big 1 false i (by omega) hv.1 hv.2
  | i8 =>
    cases v with
    | vbool b => simp [validTokValue] at hv
    | vbytes bs => simp [validTokValue] at hv
    | vint i =>
      simp only [validTokValue, FmtTok.intSpec, Bool.and_eq_true, decide_eq_true_eq] at hv
      exact encodeTok_int_case big 1 true i (by omega) hv.1 hv.2
  | u16 =>
    cases v with
    | vbool b => simp [validTokValue] at hv
    | vbytes bs => simp [validTokValue] at hv
    | vint i =>
      simp only [validTokValue, FmtTok.intSpec, Bool.and_eq_true, decide_eq_true_eq] at hv
      exact encodeTok_int_case big 2 false i (by omega) hv.1 hv.2
  | i16 =>
    cases v with
    | vbool b => simp [validTokValue] at hv
    | vbytes bs => simp [validTokValue] at hv
    | vint i =>
      simp only [validTokValue, FmtTok.intSpec, Bool.and_eq_true, decide_eq_true_eq] at hv
      exact encodeTok_int_case big 2 true i (by omega) hv.1 hv.2
  | u32 =>
    cases v with
    | vbool b => simp [validTokValue] at hv
    | vbytes bs => simp [validTokValue] at hv
    | vint i =>
      simp only [validTokValue, FmtTok.intSpec, Bool.and_eq_true, decide_eq_true_eq] at hv
      exact encodeTok_int_case big 4 false i (by omega) hv.1 hv.2
  | i32 =>
    cases v with
    | vbool b => simp [validTokValue] at hv
    | vbytes bs => simp [validTokValue] at hv
    | vint i =>
      simp only [validTokValue, FmtTok.intSpec, Bool.and_eq_true, decide_eq_true_eq] at hv
      exact encodeTok_int_case big 4 true i (by omega) hv.1 hv.2
  | u64 =>
    cases v with
    | vbool b => simp [validTokValue] at hv
    | vbytes bs => simp [validTokValue] at hv
    | vint i =>
      simp only [validTokValue, FmtTok.intSpec, Bool.and_eq_true, decide_eq_true_eq] at hv
      exact encodeTok_int_case big 8 false i (by omega) hv.1 hv.2
  | i64 =>
    cases v with
    | vbool b => simp [validTokValue] at hv
    | vbytes bs => simp [validTokValue] at hv
    | vint i =>
      simp only [validTokValue, FmtTok.intSpec, Bool.and_eq_true, decide_eq_true_eq] at hv
      exact encodeTok_int_case big 8 true i (by omega) hv.1 hv.2

theorem resolveVar_byteSize (lv : Option Bool) (t : FmtTok) :
    ∃ n, (resolveVar lv t).byteSize = some n := by
  cases t <;> simp [resolveVar, FmtTok.byteSize] <;> cases lv.getD false <;>
    simp [FmtTok.byteSize]

theorem resolveVar_of_noVar (lv : Option Bool) (t : FmtTok)
    (h1 : ¬ t = FmtTok.varint) (h2 : ¬ t = FmtTok.varuint) : resolveVar lv t = t := by
  cases t <;> simp_all [resolveVar]

theorem noVarToks_map_resolveVar (lv : Option Bool) (ts : List FmtTok)
    (h : noVarToks ts = true) : ts.map (resolveVar lv) = ts := by
  induction ts with
  | nil => rfl
  | cons t ts ih =>
    simp only [noVarToks, List.all_cons, Bool.and_eq_true, bne_iff_ne, ne_eq] at h
    obtain ⟨⟨h1, h2⟩, h3⟩ := h
    simp only [List.map_cons, resolveVar_of_noVar lv t h1 h2,
      ih (by simpa [noVarToks] using h3)]

/-- `calcsize` never fails on a resolved token list. -/
theorem calcsize_resolved (lv : Option Bool) (ts : List FmtTok) :
    ∃ n, calcsize (ts.map (resolveVar lv)) = .ok n := by
  induction ts with
  | nil => exact ⟨0, rfl⟩
  | cons t ts ih =>
    obtain ⟨m, hm⟩ := ih
    obtain ⟨n, hn⟩ := resolveVar_byteSize lv t
    exact ⟨n + m, by simp [calcsize, hn, hm]⟩

theorem calcsize_append (ts₁ ts₂ : List FmtTok) (n₁ n₂ : Nat)
    (h₁ : calcsize ts₁ = .ok n₁) (h₂ : calcsize ts₂ = .ok n₂) :
    calcsize (ts₁ ++ ts₂) = .ok (n₁ + n₂) := by
  induction ts₁ generalizing n₁ with
  | nil =>
    simp only [calcsize, Except.ok.injEq] at h₁
    subst h₁
    simpa using h₂
  | cons t ts ih =>
    cases hbs : t.byteSize with
    | none => simp [calcsize, hbs] at h₁
    | some k =>
      cases hc : calcsize ts with
      | error e => simp [calcsize, hbs, hc] at h₁
      | ok m =>
        simp only [calcsize, hbs, hc, Except.ok.injEq] at h₁
        subst h₁
        simp only [List.cons_append, calcsize, List.append_eq, hbs, ih m hc, Except.ok.injEq]
        omega

theorem structPack_append (big : Bool) (ts₁ ts₂ : List FmtTok)
    (vs₁ vs₂ : List BinValue) (bs₁ bs₂ : List Nat)
    (h₁ : structPack big ts₁ vs₁ = .ok bs₁) (h₂ : structPack big ts₂ vs₂ = .ok bs₂) :
    structPack big (ts₁ ++ ts₂) (vs₁ ++ vs₂) = .ok (bs₁ ++ bs₂) := by
  induction ts₁ generalizing vs₁ bs₁ with
  | nil =>
    cases vs₁ with
    | nil =>
      simp only [structPack, Except.ok.injEq] at h₁
      subst h₁
      simpa using h₂
    | cons v vs => simp [structPack] at h₁
  | cons t ts ih =>
    cases vs₁ with
    | nil => simp [structPack] at h₁
    | cons v vs =>
      cases he : encodeTok big t v with
      | error e => simp [structPack, he] at h₁
      | ok b =>
        cases hp : structPack big ts vs with
        | error e => simp [structPack, he, hp] at h₁
        | ok rest =>
          simp only [structPack, he, hp, Except.ok.injEq] at h₁
          subst h₁
          simp only [List.cons_append, structPack, List.append_eq, he, ih vs rest hp,
            List.append_assoc]

/-- `struct.pack` succeeds on pairwise-valid values, produces exactly
`calcsize` bytes, and `struct.unpack` inverts it. -/
theorem structPack_unpack (big : Bool) (ts : List FmtTok) (vs : List BinValue)
    (h : validValues ts vs = true) :
    ∃ bs, structPack big ts vs = .ok bs ∧ calcsize ts = .ok bs.length ∧
      (∀ b ∈ bs, b < 256) ∧ structUnpack big ts bs = .ok vs := by
  induction ts generalizing vs with
  | nil =>
    cases vs with
    | nil => exact ⟨[], rfl, rfl, by simp, rfl⟩
    | cons v vs => simp [validValues] at h
  | cons t ts ih =>
    cases vs with
    | nil => simp [validValues] at h
    | cons v vs =>
      simp only [validValues, Bool.and_eq_true] at h
      obtain ⟨b1, henc, hlen, hmem1, hdec⟩ := encodeTok_spec big t v h.1
      obtain ⟨rest, hpk, hsz, hmem2, hupk⟩ := ih vs h.2
      refine ⟨b1 ++ rest, ?_, ?_, ?_, ?_⟩
      · simp [structPack, henc, hpk]
      · simp only [calcsize, ← hlen, hsz, List.length_append]
      · intro b hb
        rcases List.mem_append.mp hb with hb | hb
        · exact hmem1 b hb
        · exact hmem2 b hb
      · simp only [structUnpack, ← hlen, List.length_append, le_add_iff_nonneg_right,
          Nat.zero_le, if_pos, List.drop_left, List.take_left, hupk, hdec]

theorem lookup_isSome_iff (l : List (String × Reservation)) (k : String) :
    (l.lookup k).isSome = true ↔ k ∈ l.map Prod.fst := by
  induction l with
  | nil => simp [List.lookup]
  | cons p l ih =>
    obtain ⟨a, b⟩ := p
    by_cases h : a = k
    · subst h
      simp [List.lookup]
    · have hbeq : (a == k) = false := by simp [h]
      have hbeq2 : (k == a) = false := by
        simp only [beq_eq_false_iff_ne, ne_eq]
        exact fun he => h he.symm
      simp only [List.lookup, hbeq, hbeq2, List.map_cons, List.mem_cons]
      rw [ih]
      constructor
      · exact Or.inr
      · rintro (h1 | h1)
        · exact absurd h1.symm h
        · exact h1

theorem lookup_filter_ne (l : List (String × Reservation)) (k : String) :
    ((l.filter (fun p => p.1 != k)).lookup k) = none := by
  induction l with
  | nil => rfl
  | cons p l ih =>
    obtain ⟨a, b⟩ := p
    by_cases h : a = k
    · simp [List.filter_cons, h, ih]
    · have hne : (a != k) = true := by simp [h]
      have hbeq : (a == k) = false := by simp [h]
      have hbeq2 : (k == a) = false := by
        simp only [beq_eq_false_iff_ne, ne_eq]
        exact fun he => h he.symm
      simp [List.filter_cons, hne, List.lookup, hbeq, hbeq2, ih]

theorem nodup_keys_append (l : List (String × Reservation)) (k : String) (r : Reservation)
    (hnd : (l.map Prod.fst).Nodup) (hk : (l.lookup k).isSome = false) :
    (((l ++ [(k, r)]).map Prod.fst)).Nodup := by
  have hkmem : k ∉ l.map Prod.fst := by
    intro hmem
    rw [← lookup_isSome_iff] at hmem
    rw [hmem] at hk
    cases hk
  simp only [List.map_append, List.map_cons, List.map_nil]
  rw [List.nodup_append]
  refine ⟨hnd, List.nodup_singleton k, ?_⟩
  intro a ha hb
  simp only [List.mem_singleton] at hb
  subst hb
  exact hkmem ha

theorem nodup_keys_filter (l : List (String × Reservation))
    (p : String × Reservation → Bool) (hnd : (l.map Prod.fst).Nodup) :
    ((l.filter p).map Prod.fst).Nodup :=
  ((l.filter_sublist).map Prod.fst).nodup hnd

theorem calcsize_eq_sum (ts : List FmtTok) (h : ∀ t ∈ ts, t.byteSize.isSome = true) :
    calcsize ts = .ok ((ts.map (fun t => t.byteSize.getD 0)).sum) := by
  induction ts with
  | nil => rfl
  | cons t ts ih =>
    obtain ⟨n, hn⟩ := Option.isSome_iff_exists.mp (h t (by simp))
    have ih2 := ih (fun x hx => h x (List.mem_cons_of_mem _ hx))
    simp [calcsize, hn, ih2]

theorem noVar_byteSize_isSome (t : FmtTok) (h1 : ¬ t = FmtTok.varint)
    (h2 : ¬ t = FmtTok.varuint) : t.byteSize.isSome = true := by
  cases t <;> simp_all [FmtTok.byteSize]

theorem plainField_elim (f : FieldSchema) (h : plainField f = true) :
    f.bitCount = -1 ∧ f.shouldSkip = none ∧ f.unpackFunc = none ∧ f.packFunc = none := by
  simp only [plainField, Bool.and_eq_true, beq_iff_eq, Option.isNone_iff_eq_none] at h
  exact ⟨h.1.1.1, h.1.1.2, h.1.2, h.2⟩

theorem validFieldValue_elim (f : FieldSchema) (v : BinValue)
    (h : validFieldValue f v = true) :
    validTokValue (resolveVar (some true) f.fmt) v = true ∧
      (f.asserted ≠ [] → v ∈ f.asserted) := by
  simp only [validFieldValue, Bool.and_eq_true, Bool.or_eq_true, List.isEmpty_iff,
    decide_eq_true_eq] at h
  refine ⟨h.1, fun hne => ?_⟩
  rcases h.2 with h2 | h2
  · exact absurd h2 hne
  · exact h2

theorem getPacker_plain (f : FieldSchema) (input : List BinValue) (v : BinValue)
    (hpf : f.packFunc = none) (hassert : f.asserted ≠ [] → v ∈ f.asserted) :
    f.getPacker input v = .ok (input ++ [v]) := by
  have hcond : ¬ (f.asserted ≠ [] ∧ v ∉ f.asserted) := fun hcon => hcon.2 (hassert hcon.1)
  simp only [FieldSchema.getPacker, if_neg hcond, hpf]

theorem getUnpacker_plain (f : FieldSchema) (out : List BinValue) (v : BinValue)
    (hupf : f.unpackFunc = none) (hassert : f.asserted ≠ [] → v ∈ f.asserted) :
    f.getUnpacker (out ++ [v]) = .ok (v, out) := by
  have hcond : ¬ (f.asserted ≠ [] ∧ v ∉ f.asserted) := fun hcon => hcon.2 (hassert hcon.1)
  simp only [FieldSchema.getUnpacker, List.getLast?_concat, List.dropLast_concat, hupf,
    if_neg hcond]

theorem toWriterStep_plain (bo : ByteOrder) (lv : Option Bool) (rp : String)
    (so : Nat) (fv : List (String × Option BinValue)) (st : PackState)
    (f : FieldSchema) (v : BinValue)
    (hplain : plainField f = true) (hvalid : validFieldValue f v = true)
    (hbw : st.bitWriter.empty = true) :
    toWriterStep bo lv rp so fv st f (some v) =
      .ok { st with
              fullFmt := st.fullFmt ++ [f.fmt]
              structInput := st.structInput ++ [v] } := by
  obtain ⟨hbc, hsk, hupf, hpf⟩ := plainField_elim f hplain
  obtain ⟨htok, hassert⟩ := validFieldValue_elim f v hvalid
  simp [toWriterStep, hsk, hbw, hbc, packFieldValue,
    getPacker_plain f st.structInput v hpf hassert]

theorem toWriterLoop_plain (bo : ByteOrder) (lv : Option Bool) (rp : String)
    (so : Nat) (fv : List (String × Option BinValue)) (seg : List FieldSchema) :
    ∀ (vals : List BinValue) (st : PackState),
    vals.length = seg.length →
    (∀ f ∈ seg, plainField f = true) →
    (∀ p ∈ seg.zip vals, validFieldValue p.1 p.2 = true) →
    st.bitWriter.empty = true →
    toWriterLoop bo lv rp so fv (seg.zip (vals.map some)) st =
      .ok { st with
              fullFmt := st.fullFmt ++ seg.map FieldSchema.fmt
              structInput := st.structInput ++ vals } := by
  induction seg with
  | nil =>
    intro vals st hlen _ _ _
    have hv : vals = [] := List.length_eq_zero.mp hlen
    subst hv
    simp [toWriterLoop]
  | cons f seg ih =>
    intro vals st hlen hplain hvalid hbw
    cases vals with
    | nil => simp at hlen
    | cons v vals =>
      have hstep := toWriterStep_plain bo lv rp so fv st f v
        (hplain f (by simp)) (hvalid (f, v) (by simp)) hbw
      simp only [List.map_cons, List.zip_cons_cons, toWriterLoop, hstep]
      have ih2 := ih vals
        { st with
            fullFmt := st.fullFmt ++ [f.fmt]
            structInput := st.structInput ++ [v] }
        (by simpa using hlen)
        (fun g hg => hplain g (List.mem_cons_of_mem _ hg))
        (fun p hp => hvalid p (List.mem_cons_of_mem _ hp))
        hbw
      rw [show List.zipWith Prod.mk seg (List.map some vals) =
        seg.zip (List.map some vals) from rfl]
      rw [ih2]
      simp [List.append_assoc]

theorem validValues_of_zip (s : List FieldSchema) :
    ∀ (vals : List BinValue),
    vals.length = s.length →
    (∀ p ∈ s.zip vals, validFieldValue p.1 p.2 = true) →
    validValues (s.map (fun f => resolveVar (some true) f.fmt)) vals = true := by
  induction s with
  | nil =>
    intro vals hlen _
    have hv : vals = [] := List.length_eq_zero.mp hlen
    subst hv
    rfl
  | cons f s ih =>
    intro vals hlen hvalid
    cases vals with
    | nil => simp at hlen
    | cons v vals =>
      have h1 := (validFieldValue_elim f v (hvalid (f, v) (by simp))).1
      simp only [List.map_cons, validValues, Bool.and_eq_true]
      exact ⟨h1, ih vals (by simpa using hlen)
        (fun p hp => hvalid p (List.mem_cons_of_mem _ hp))⟩

theorem getFullFmtLoop_plain (lv : Option Bool) (s : List FieldSchema) :
    ∀ (acc : List FmtTok) (u m : Nat),
    (∀ f ∈ s, f.bitCount = -1) →
    getFullFmtLoop lv none s acc u m = acc ++ s.map FieldSchema.fmt := by
  induction s with
  | nil =>
    intro acc u m _
    simp [getFullFmtLoop]
  | cons f s ih =>
    intro acc u m hbits
    have hbc : f.bitCount = -1 := hbits f (by simp)
    cases hsk : f.shouldSkip with
    | none =>
      simp only [getFullFmtLoop, hsk, hbc]
      rw [ih (acc ++ [f.fmt]) 0 0 (fun g hg => hbits g (List.mem_cons_of_mem _ hg))]
      simp [List.append_assoc]
    | some p =>
      simp only [getFullFmtLoop, hsk, hbc]
      rw [ih (acc ++ [f.fmt]) 0 0 (fun g hg => hbits g (List.mem_cons_of_mem _ hg))]
      simp [List.append_assoc]

theorem getFullFmt_plain (s : List FieldSchema) (h : ∀ f ∈ s, f.bitCount = -1) :
    getFullFmt s none none = s.map FieldSchema.fmt := by
  simpa using getFullFmtLoop_plain none s [] 0 0 h

theorem fromBytesLoop_plain (lv : Option Bool) (seg : List FieldSchema) :
    ∀ (vals : List BinValue) (r : BinaryReader) (br : BitFieldReader)
      (acc : List (String × Option BinValue)),
    vals.length = seg.length →
    (∀ f ∈ seg, plainField f = true) →
    (∀ p ∈ seg.zip vals, validFieldValue p.1 p.2 = true) →
    fromBytesLoop lv seg (some vals.reverse) r br acc =
      .ok (acc ++ (seg.map FieldSchema.name).zip (vals.map some), r) := by
  induction seg with
  | nil =>
    intro vals r br acc hlen _ _
    have hv : vals = [] := List.length_eq_zero.mp hlen
    subst hv
    simp [fromBytesLoop]
  | cons f seg ih =>
    intro vals r br acc hlen hplain hvalid
    cases vals with
    | nil => simp at hlen
    | cons v vals =>
      obtain ⟨hbc, hsk, hupf, _⟩ := plainField_elim f (hplain f (by simp))
      obtain ⟨_, hassert⟩ := validFieldValue_elim f v (hvalid (f, v) (by simp))
      have hrev : (v :: vals).reverse = vals.reverse ++ [v] := by simp
      have hunp := getUnpacker_plain f vals.reverse v hupf hassert
      have ih2 := ih vals r (if br.empty = false then BitFieldReader.cleared else br)
        (acc ++ [(f.name, some v)]) (by simpa using hlen)
        (fun g hg => hplain g (List.mem_cons_of_mem _ hg))
        (fun p hp => hvalid p (List.mem_cons_of_mem _ hp))
      simp [fromBytesLoop, hsk, hrev, fromBytesField, hbc, hunp, ih2,
        List.append_assoc]

theorem unpack_single_ok (r : BinaryReader) (tok : FmtTok) (vals : List BinValue)
    (r2 : BinaryReader) (h : r.unpack ⟨none, [tok]⟩ = .ok (vals, r2)) :
    r2.data = r.data ∧ r2.defaultByteOrder = r.defaultByteOrder ∧
    r2.longVarints = r.longVarints ∧
    r2.pos = r.pos + (resolveVar r.longVarints tok).byteSize.getD 0 := by
  obtain ⟨n, hn⟩ := resolveVar_byteSize r.longVarints tok
  simp only [BinaryReader.unpack, parseFmt, List.map_cons, List.map_nil, calcsize, hn] at h
  split at h
  · exact absurd h (by simp)
  · split at h
    · exact absurd h (by simp)
    · rename_i hv
      rw [Except.ok.injEq] at h
      cases h
      refine ⟨rfl, rfl, rfl, ?_⟩
      simp [hn]

/-- Specification of the sequential (careful-mode) `from_bytes` loop over
bit-free fields: each skipped field stores `None` and consumes nothing,
skipping is decided by the predicate on the flag and the already-decoded
values, and the reader advances by exactly the resolved sizes of the
non-skipped fields. -/
theorem fromBytesLoop_seq_spec (lv : Option Bool) (seg : List FieldSchema) :
    ∀ (r : BinaryReader) (br : BitFieldReader)
      (acc out : List (String × Option BinValue)) (rf : BinaryReader),
    (∀ f ∈ seg, f.bitCount = -1) →
    fromBytesLoop lv seg none r br acc = .ok (out, rf) →
    ∃ ext, out = acc ++ ext ∧ ext.length = seg.length ∧
      rf.data = r.data ∧ rf.defaultByteOrder = r.defaultByteOrder ∧
      rf.longVarints = r.longVarints ∧
      (∀ i, (hi : i < seg.length) → (hie : i < ext.length) →
        ((ext.get ⟨i, hie⟩).2 = none ↔
          ∃ p, (seg.get ⟨i, hi⟩).shouldSkip = some p ∧
            p lv (acc ++ ext.take i) = true) ∧
        (ext.get ⟨i, hie⟩).1 = (seg.get ⟨i, hi⟩).name) ∧
      rf.pos = r.pos + ((seg.zip ext).map (fun q =>
        if q.2.2 = none then 0
        else (resolveVar r.longVarints q.1.fmt).byteSize.getD 0)).sum := by
  induction seg with
  | nil =>
    intro r br acc out rf _ h
    simp only [fromBytesLoop, Except.ok.injEq, Prod.mk.injEq] at h
    obtain ⟨h1, h2⟩ := h
    subst h1
    subst h2
    refine ⟨[], by simp, rfl, rfl, rfl, rfl, ?_, by simp⟩
    intro i hi
    exact absurd hi (by simp)
  | cons f seg ih =>
    intro r br acc out rf hbits h
    have hbc : f.bitCount = -1 := hbits f (by simp)
    simp only [fromBytesLoop] at h
    split at h
    · -- skipped field
      rename_i hskipc
      obtain ⟨ext, hout, hlen, hdata, hbo, hlvp, hidx, hpos⟩ :=
        ih _ _ _ _ _ (fun g hg => hbits g (List.mem_cons_of_mem _ hg)) h
      obtain ⟨p, hp⟩ : ∃ p, f.shouldSkip = some p ∧ p lv acc = true := by
        cases hsk : f.shouldSkip with
        | none => rw [hsk] at hskipc; cases hskipc
        | some p =>
          rw [hsk] at hskipc
          exact ⟨p, rfl, hskipc⟩
      refine ⟨(f.name, none) :: ext, by simpa using hout, by simpa using hlen,
        hdata, hbo, hlvp, ?_, ?_⟩
      · intro i hi hie
        cases i with
        | zero =>
          refine ⟨?_, rfl⟩
          simp only [List.get_cons_zero, List.take_zero, List.append_nil]
          exact ⟨fun _ => ⟨p, hp.1, hp.2⟩, fun _ => rfl⟩
        | succ j =>
          have hj := hidx j (by simpa using hi) (by simpa using hie)
          simp only [List.get_cons_succ]
          refine ⟨?_, hj.2⟩
          rw [hj.1]
          constructor
          · rintro ⟨q, hq1, hq2⟩
            exact ⟨q, hq1, by simpa [List.append_assoc] using hq2⟩
          · rintro ⟨q, hq1, hq2⟩
            exact ⟨q, hq1, by simpa [List.append_assoc] using hq2⟩
      · simpa using hpos
    · -- decoded field
      rename_i hskipc
      split at h
      · exact absurd h (by simp)
      · rename_i v so2 r2 br2 heq
        -- unpack the field step
        rw [fromBytesField, if_neg (by simp [hbc])] at heq
        cases hru : BinaryReader.unpack r ⟨none, [f.fmt]⟩ with
        | error e => rw [hru] at heq; exact absurd heq (by simp)
        | ok pr =>
          obtain ⟨uvals, r2x⟩ := pr
          simp only [hru] at heq
          cases hgu : f.getUnpacker uvals with
          | error e =>
            simp only [hgu] at heq
            exact absurd heq (by simp)
          | ok pv =>
            obtain ⟨v0, rest0⟩ := pv
            simp only [hgu] at heq
            simp only [Except.ok.injEq, Prod.mk.injEq] at heq
            obtain ⟨hv0, hso2, hr2, hbr2⟩ := heq
            subst hv0
            subst hso2
            subst hr2
            subst hbr2
            obtain ⟨hd2, hbo2, hlv2, hpos2⟩ := unpack_single_ok r f.fmt uvals r2x hru
            obtain ⟨ext, hout, hlen, hdata, hbo, hlvp, hidx, hpos⟩ :=
              ih _ _ _ _ _ (fun g hg => hbits g (List.mem_cons_of_mem _ hg)) h
            refine ⟨(f.name, some v0) :: ext, by simpa using hout, by simpa using hlen,
              hdata.trans hd2, hbo.trans hbo2, hlvp.trans hlv2, ?_, ?_⟩
            · intro i hi hie
              cases i with
              | zero =>
                refine ⟨?_, rfl⟩
                constructor
                · intro hnone
                  simp at hnone
                · rintro ⟨q, hq1, hq2⟩
                  have hq1f : f.shouldSkip = some q := hq1
                  rw [hq1f] at hskipc
                  refine absurd ?_ hskipc
                  simpa using hq2
              | succ j =>
                have hj := hidx j (by simpa using hi) (by simpa using hie)
                simp only [List.get_cons_succ]
                refine ⟨?_, hj.2⟩
                rw [hj.1]
                constructor
                · rintro ⟨q, hq1, hq2⟩
                  exact ⟨q, hq1, by simpa [List.append_assoc] using hq2⟩
                · rintro ⟨q, hq1, hq2⟩
                  exact ⟨q, hq1, by simpa [List.append_assoc] using hq2⟩
            · rw [hpos, hpos2, hlv2]
              simp only [List.zip_cons_cons, List.map_cons, List.sum_cons]
              simp
              omega

theorem toWriterLoop_append (bo : ByteOrder) (lv : Option Bool) (rp : String)
    (so : Nat) (fv : List (String × Option BinValue))
    (xs : List (FieldSchema × Option BinValue)) :
    ∀ (ys : List (FieldSchema × Option BinValue)) (st st1 : PackState),
    toWriterLoop bo lv rp so fv xs st = .ok st1 →
    toWriterLoop bo lv rp so fv (xs ++ ys) st = toWriterLoop bo lv rp so fv ys st1 := by
  induction xs with
  | nil =>
    intro ys st st1 h
    simp only [toWriterLoop, Except.ok.injEq] at h
    subst h
    simp
  | cons x xs ih =>
    intro ys st st1 h
    obtain ⟨f, val⟩ := x
    simp only [toWriterLoop] at h ⊢
    cases hst : toWriterStep bo lv rp so fv st f val with
    | error e => rw [hst] at h; cases h
    | ok st2 =>
      rw [hst] at h
      simp only [List.cons_append, toWriterLoop, hst]
      exact ih ys st2 st1 h

theorem getFmtSize_noVar (w : BinaryWriter) (lv : Option Bool) (ts : List FmtTok)
    (n : Nat) (hlv : lv.isSome = true) (hnv : noVarToks ts = true)
    (hsz : calcsize ts = .ok n) :
    getFmtSize w lv ts = .ok n := by
  rw [getFmtSize.eq_def]
  by_cases hts : ts = []
  · subst hts
    simp only [calcsize, Except.ok.injEq] at hsz
    simp [hsz]
  · rw [if_neg hts]
    cases lv with
    | none => exact absurd hlv (by simp)
    | some b =>
      simp only [BinaryWriter.calcsize, parseFmt]
      rw [noVarToks_map_resolveVar w.longVarints ts hnv]
      exact hsz

theorem writeAt_middle (E₁ N E₂ P : List Nat) (hlen : P.length = N.length) :
    writeAt (E₁ ++ N ++ E₂) E₁.length P = E₁ ++ P ++ E₂ := by
  rw [writeAt]
  have h1 : (E₁ ++ N ++ E₂).take E₁.length = E₁ := by
    rw [List.append_assoc]
    exact List.take_left E₁ (N ++ E₂)
  have h2 : (E₁ ++ N ++ E₂).drop (E₁.length + P.length) = E₂ := by
    rw [hlen, show E₁.length + N.length = (E₁ ++ N).length by simp]
    exact List.drop_left (E₁ ++ N) E₂
  rw [h1, h2]

theorem encodeTok_nulls (big : Bool) (n : Nat) :
    encodeTok big (.tbytes n) (.vbytes (List.replicate n 0)) =
      .ok (List.replicate n 0) := by
  simp [encodeTok]

/-! ## Claim theorems -/

/-- C1: for a schema with no skip predicates (here in the plain fragment:
no bit packing and no conversion hooks) and an instance with valid field
values, `from_bytes(to_bytes(r))` with the same byte order and
`long_varints` flag reproduces every binary field of `r`. -/
theorem c1_roundtrip (s : List FieldSchema) (values : List BinValue) (bo : ByteOrder)
    (lv : Option Bool) (rp : String)
    (hlen : values.length = s.length)
    (hplain : ∀ f ∈ s, plainField f = true)
    (hvalid : ∀ p ∈ s.zip values, validFieldValue p.1 p.2 = true) :
    ∃ bs : List Nat,
      toBytes s (values.map some) (some bo) lv rp = .ok bs ∧
      fromBytes s bs (some bo) lv =
        .ok ((s.map FieldSchema.name).zip (values.map some), bs.length) := by
  have hvv := validValues_of_zip s values hlen hvalid
  obtain ⟨bs, hpk, hsz, hmem, hupk⟩ := structPack_unpack bo.isBig
    (s.map (fun f => resolveVar (some true) f.fmt)) values hvv
  have hpk2 : structPack bo.isBig
      ((s.map FieldSchema.fmt).map (resolveVar (some true))) values = .ok bs := by
    rw [List.map_map]
    exact hpk
  have hsz2 : calcsize ((s.map FieldSchema.fmt).map (resolveVar (some true))) =
      .ok bs.length := by
    rw [List.map_map]
    exact hsz
  have hupk2 : structUnpack bo.isBig
      ((s.map FieldSchema.fmt).map (resolveVar (some true))) bs = .ok values := by
    rw [List.map_map]
    exact hupk
  have hff : getFullFmt s none none = s.map FieldSchema.fmt :=
    getFullFmt_plain s (fun f hf => (plainField_elim f (hplain f hf)).1)
  have hcare : s.any (fun f => f.shouldSkip.isSome) = false := by
    rw [List.any_eq_false]
    intro f hf
    have h2 := (plainField_elim f (hplain f hf)).2.1
    simp [h2]
  refine ⟨bs, ?_, ?_⟩
  · have hloop := toWriterLoop_plain bo lv rp ((mkBinaryWriter bo).array.length)
      ((s.map FieldSchema.name).zip (values.map some)) s values
      ⟨[], [], BitFieldWriter.cleared, mkBinaryWriter bo⟩ hlen hplain hvalid rfl
    have htoW : toWriter s (values.map some) (some bo) lv rp =
        .ok { mkBinaryWriter bo with array := bs } := by
      simp only [toWriter, Option.getD_some, hloop]
      simp [BinaryWriter.pack, parseFmt, mkBinaryWriter, hpk2]
      rw [show List.map (resolveVar (some true) ∘ FieldSchema.fmt) s
          = List.map (fun f => resolveVar (some true) f.fmt) s from rfl]
      simp [hpk]
    simp [toBytes, htoW, mkBinaryWriter, BinaryWriter.toBytesFinal]
  · have hunpack : BinaryReader.unpack ⟨bs, 0, bo, some true⟩
        ⟨none, getFullFmt s none none⟩ =
        .ok (values, ⟨bs, bs.length, bo, some true⟩) := by
      rw [hff]
      simp [BinaryReader.unpack, parseFmt, hsz2, hupk2]
      rw [show List.map (resolveVar (some true) ∘ FieldSchema.fmt) s
          = List.map (fun f => resolveVar (some true) f.fmt) s from rfl]
      simp [hsz, hupk, List.take_length]
    have hloop2 := fromBytesLoop_plain lv s values ⟨bs, bs.length, bo, some true⟩
      BitFieldReader.cleared [] hlen hplain hvalid
    simp [fromBytes, Option.getD_some, hcare, hunpack, hloop2]

/-- C4: a compiled codec with both an assertion set and conversion hooks
applies the convert-in hook to the raw wire value before the assertion
check on unpack, and checks the supplied value against the assertion set
before the convert-out hook on pack — the assertion always validates the
domain-level value. -/
theorem c4_codec_hook_assertion_order (nm : String) (fmt : FmtTok) (A : List BinValue)
    (fIn fOut : BinValue → BinValue) (bc : Int)
    (sk : Option (Option Bool → List (String × Option BinValue) → Bool))
    (hA : A ≠ []) (output input : List BinValue) (raw v : BinValue) :
    (FieldSchema.mk nm fmt A (some fIn) (some fOut) bc sk).getUnpacker (output ++ [raw]) =
      (if fIn raw ∈ A then .ok (fIn raw, output)
       else .error "Field read value is not an asserted value.") ∧
    (FieldSchema.mk nm fmt A (some fIn) (some fOut) bc sk).getPacker input v =
      (if v ∈ A then .ok (input ++ [fOut v])
       else .error "Field value is not an asserted value.") := by
  constructor
  · simp only [FieldSchema.getUnpacker, List.getLast?_concat, List.dropLast_concat]
    by_cases hmem : fIn raw ∈ A
    · rw [if_neg (fun h => h.2 hmem), if_pos hmem]
    · rw [if_pos ⟨hA, hmem⟩, if_neg hmem]
  · simp only [FieldSchema.getPacker]
    by_cases hmem : v ∈ A
    · rw [if_neg (fun h => h.2 hmem), if_pos hmem]
    · rw [if_pos ⟨hA, hmem⟩, if_neg hmem]

/-- Witness for C4 at a concrete codec: asserted set `{5}`, identity
hooks. -/
theorem c4_codec_hook_assertion_order_witness :
    (FieldSchema.mk "x" .u8 [BinValue.vint 5] (some (fun u => u)) (some (fun u => u))
      (-1) none).getUnpacker [BinValue.vint 5] = .ok (BinValue.vint 5, []) ∧
    (FieldSchema.mk "x" .u8 [BinValue.vint 5] (some (fun u => u)) (some (fun u => u))
      (-1) none).getPacker [] (BinValue.vint 5) = .ok [BinValue.vint 5] := by
  have h := c4_codec_hook_assertion_order "x" .u8 [BinValue.vint 5]
    (fun u => u) (fun u => u) (-1) none (by simp) [] [] (BinValue.vint 5) (BinValue.vint 5)
  simpa using h

/-- C6: a bit-field write whose value does not fit in the declared bit
count raises (both `write` and `write_to_buffer`) instead of emitting any
bits — the error is returned before any state or buffer change. -/
theorem c6_bit_overflow (bw : BitFieldWriter) (w : BinaryWriter) (buffer : List BinValue)
    (value bitCount : Nat) (fmt : FmtTok) (h : 2 ^ bitCount ≤ value) :
    bw.writeToBuffer buffer value bitCount fmt =
      .error "Value of new bit field value is too large for given bit count." ∧
    bw.write w value bitCount fmt =
      .error "Value of new bit field value is too large for given bit count." := by
  constructor
  · simp only [BitFieldWriter.writeToBuffer, if_pos h]
  · simp only [BitFieldWriter.write, if_pos h]

/-- Witness for C6: writing value 8 into a 3-bit field fails. -/
theorem c6_bit_overflow_witness :
    BitFieldWriter.cleared.writeToBuffer [] 8 3 .u8 =
      .error "Value of new bit field value is too large for given bit count." ∧
    BitFieldWriter.cleared.write (mkBinaryWriter .littleEndian) 8 3 .u8 =
      .error "Value of new bit field value is too large for given bit count." :=
  c6_bit_overflow BitFieldWriter.cleared (mkBinaryWriter .littleEndian) [] 8 3 .u8
    (by decide)

/-- C9 (code bug): `pack_z_string` and `read_null_terminated_bytes` treat
every UTF-16 variant as two bytes per character, but
`read_chars_from_buffer` tests `startswith("utf16le")`, so `utf-16-be` and
plain `utf-16` reads consume one byte per character — contradicting the
claim and the function's own docstring. -/
theorem c9_utf16_terminator_width :
    packZStringTerminator "utf-16-be" = [0, 0] ∧
    readNullTerminatedBytesPerChar (some "utf-16-be") = 2 ∧
    readCharsFromBufferBytesPerChar (some "utf-16-be") = 1 ∧
    readCharsFromBufferBytesPerChar (some "utf-16") = 1 ∧
    readCharsFromBufferBytesPerChar (some "utf-16-le") = 2 := by
  refine ⟨?_, ?_, ?_, ?_, ?_⟩ <;> decide

/-- C3 (code bug): packing and unpacking a varint field with the
`long_varints` flag unresolved (`None`) raises no error: `to_writer` builds
a fresh `BinaryWriter` whose own default (`long_varints=True`) resolves the
token to 8 bytes, and `from_bytes` builds its transient `BinaryReader` the
same way.  Even an explicit `long_varints=False` on the instance is ignored
by both paths. -/
theorem c3_varint_unresolved_flag_not_an_error :
    toBytes [⟨"x", .varint, [], none, none, -1, none⟩] [some (.vint 1)]
      (some .littleEndian) none "S" = .ok [1, 0, 0, 0, 0, 0, 0, 0] ∧
    fromBytes [⟨"x", .varint, [], none, none, -1, none⟩] [1, 0, 0, 0, 0, 0, 0, 0]
      (some .littleEndian) none = .ok ([("x", some (.vint 1))], 8) ∧
    toBytes [⟨"x", .varint, [], none, none, -1, none⟩] [some (.vint 1)]
      (some .littleEndian) (some false) "S" = .ok [1, 0, 0, 0, 0, 0, 0, 0] ∧
    fromBytes [⟨"x", .varint, [], none, none, -1, none⟩] [1, 0, 0, 0, 0, 0, 0, 0]
      (some .littleEndian) (some false) = .ok ([("x", some (.vint 1))], 8) := by
  exact ⟨rfl, rfl, rfl, rfl⟩

/-- C10: `fill` is atomic on error — re-encoding the supplied values with
the reservation's stored wire format happens before any mutation, so a
`struct.error` raises while the buffer and the ledger are untouched (the
functional model returns no new state), and a subsequent fill of the same
key with encodable values still succeeds, overwriting exactly the reserved
span and consuming the reservation. -/
theorem c10_fill_atomic (w : BinaryWriter) (name : String) (obj : Option String)
    (res : Reservation) (bad : List BinValue) (e : String)
    (hbadne : bad ≠ [])
    (hres : w.reserved.lookup (reserveName name obj) = some res)
    (hbad : structPack (res.fmt.bo.getD w.defaultByteOrder).isBig res.fmt.toks bad =
      .error e) :
    w.fill name bad obj = .error "Error occurred when packing values to reserved offset." ∧
    (∀ good packed, good ≠ [] →
      structPack (res.fmt.bo.getD w.defaultByteOrder).isBig res.fmt.toks good = .ok packed →
      w.fill name good obj = .ok { w with
        array := writeAt w.array res.offset packed
        reserved := w.reserved.filter (fun p => p.1 != reserveName name obj) }) := by
  constructor
  · simp only [BinaryWriter.fill, if_neg hbadne, hres, hbad]
  · intro good packed hg hp
    simp only [BinaryWriter.fill, if_neg hg, hres, hp]

/-- Witness for C10: a one-byte reservation filled with an out-of-range
value fails; the in-range value then succeeds. -/
theorem c10_fill_atomic_witness :
    (BinaryWriter.mk .littleEndian (some true) [0]
        [("k", ⟨0, ⟨some .littleEndian, [.u8]⟩⟩)]).fill "k" [.vint 300] none =
      .error "Error occurred when packing values to reserved offset." ∧
    (BinaryWriter.mk .littleEndian (some true) [0]
        [("k", ⟨0, ⟨some .littleEndian, [.u8]⟩⟩)]).fill "k" [.vint 7] none =
      .ok (BinaryWriter.mk .littleEndian (some true) [7] []) := by
  have h := c10_fill_atomic
    (BinaryWriter.mk .littleEndian (some true) [0] [("k", ⟨0, ⟨some .littleEndian, [.u8]⟩⟩)])
    "k" none ⟨0, ⟨some .littleEndian, [.u8]⟩⟩ [.vint 300]
    "struct.error: argument out of range" (by decide) (by decide) rfl
  refine ⟨h.1, ?_⟩
  have h2 := h.2 [.vint 7] [7] (by decide) rfl
  simpa using h2

/-- Witness for C1: a `B`/`>h`/`2s` schema round-trips concrete values in
big-endian order. -/
theorem c1_roundtrip_witness :
    ∃ bs : List Nat,
      toBytes [⟨"a", .u8, [], none, none, -1, none⟩,
          ⟨"b", .i16, [], none, none, -1, none⟩,
          ⟨"c", .tbytes 2, [], none, none, -1, none⟩]
        [some (.vint 7), some (.vint (-2)), some (.vbytes [1, 2])]
        (some .bigEndian) none "S" = .ok bs ∧
      fromBytes [⟨"a", .u8, [], none, none, -1, none⟩,
          ⟨"b", .i16, [], none, none, -1, none⟩,
          ⟨"c", .tbytes 2, [], none, none, -1, none⟩]
        bs (some .bigEndian) none =
        .ok ([("a", some (.vint 7)), ("b", some (.vint (-2))),
          ("c", some (.vbytes [1, 2]))], bs.length) := by
  have h := c1_roundtrip
    [⟨"a", .u8, [], none, none, -1, none⟩, ⟨"b", .i16, [], none, none, -1, none⟩,
      ⟨"c", .tbytes 2, [], none, none, -1, none⟩]
    [.vint 7, .vint (-2), .vbytes [1, 2]] .bigEndian none "S"
    (by decide) (by decide) (by decide)
  simpa using h

/-- C7: when any field carries a skip predicate, `from_bytes` decodes via
the sequential path (never the single bulk unpack), each field's predicate
is evaluated against the `long_varints` flag and the already-decoded
values, a skipped field gets the absence sentinel `None`, and the reader
consumes bytes only for the non-skipped fields. -/
theorem c7_skip_forces_sequential_decode (s : List FieldSchema) (data : List Nat)
    (boArg : Option ByteOrder) (lv : Option Bool)
    (out : List (String × Option BinValue)) (pos : Nat)
    (hskip : (s.any fun f => f.shouldSkip.isSome) = true)
    (hbits : ∀ f ∈ s, f.bitCount = -1)
    (h : fromBytes s data boArg lv = .ok (out, pos)) :
    (∃ rf : BinaryReader,
      fromBytesLoop lv s none ⟨data, 0, boArg.getD ByteOrder.littleEndian, some true⟩
        BitFieldReader.cleared [] = .ok (out, rf) ∧
      rf.data = data ∧ pos = rf.pos) ∧
    out.length = s.length ∧
    (∀ i, (hi : i < s.length) → (hio : i < out.length) →
      ((out.get ⟨i, hio⟩).2 = none ↔
        ∃ p, (s.get ⟨i, hi⟩).shouldSkip = some p ∧ p lv (out.take i) = true) ∧
      (out.get ⟨i, hio⟩).1 = (s.get ⟨i, hi⟩).name) ∧
    pos = ((s.zip out).map (fun q =>
      if q.2.2 = none then 0
      else (resolveVar (some true) q.1.fmt).byteSize.getD 0)).sum := by
  simp only [fromBytes, hskip] at h
  split at h
  · exact absurd h (by simp)
  · rename_i vals r2 heq
    simp only [Bool.true_eq_false, if_false, Except.ok.injEq, Prod.mk.injEq] at heq
    obtain ⟨hv, hr⟩ := heq
    subst hv
    subst hr
    split at h
    · exact absurd h (by simp)
    · rename_i vals2 r3 heq2
      rw [Except.ok.injEq, Prod.mk.injEq] at h
      obtain ⟨h1, h2⟩ := h
      subst h1
      obtain ⟨ext, hout, hlen, hdata, hbo, hlvp, hidx, hpos⟩ :=
        fromBytesLoop_seq_spec lv s _ _ _ _ _ hbits heq2
      simp only [List.nil_append] at hout
      subst hout
      refine ⟨⟨r3, heq2, hdata, h2.symm⟩, hlen, ?_, ?_⟩
      · intro i hi hio
        have hj := hidx i hi hio
        simpa using hj
      · rw [← h2, hpos]
        simp [hlvp]

/-- Witness for C7: field `b` is skipped exactly when field `a` decodes to
zero; one byte of input decodes both fields while consuming only one. -/
theorem c7_skip_forces_sequential_decode_witness :
    fromBytes [⟨"a", .u8, [], none, none, -1, none⟩,
        ⟨"b", .u16, [], none, none, -1,
          some (fun _ vals => vals.lookup "a" == some (some (BinValue.vint 0)))⟩]
      [0] none none =
      .ok ([("a", some (.vint 0)), ("b", none)], 1) ∧
    ([("a", some (BinValue.vint 0)), ("b", (none : Option BinValue))] :
      List (String × Option BinValue)).length =
      ([⟨"a", FmtTok.u8, [], none, none, -1, none⟩,
        ⟨"b", FmtTok.u16, [], none, none, -1,
          some (fun _ vals => vals.lookup "a" == some (some (BinValue.vint 0)))⟩] :
        List FieldSchema).length := by
  have h := c7_skip_forces_sequential_decode
    [⟨"a", .u8, [], none, none, -1, none⟩,
      ⟨"b", .u16, [], none, none, -1,
        some (fun _ vals => vals.lookup "a" == some (some (BinValue.vint 0)))⟩]
    [0] none none [("a", some (.vint 0)), ("b", none)] 1
    (by decide) (by decide) rfl
  exact ⟨rfl, h.2.1⟩

/-- Supporting result for the reservation analysis: with a RESOLVED
`long_varints` flag (where `get_fmt_size` sizes the batched format through
the writer's prefixed `calcsize`, consistently with the final pack call),
packing a record whose one non-single-asserted field is `None` records
exactly one reservation for that field and writes a null placeholder of
the field's wire width at its offset; filling it and finalizing yields
exactly the bytes of packing the record with the value supplied directly.
With an unresolved flag the offset is computed by a native-aligned
`struct.calcsize` instead and this can fail (see the C2 theorem). -/
theorem reservation_roundtrip_resolved (s₁ s₂ : List FieldSchema) (fk : FieldSchema)
    (values₁ values₂ : List BinValue) (v : BinValue) (bo : ByteOrder)
    (lv : Option Bool) (rp : String) (hlv : lv.isSome = true)
    (hlen₁ : values₁.length = s₁.length) (hlen₂ : values₂.length = s₂.length)
    (hplain : ∀ f ∈ s₁ ++ [fk] ++ s₂, plainField f = true)
    (hnovar₁ : noVarToks (s₁.map FieldSchema.fmt) = true)
    (hsingle : fk.singleAsserted = none)
    (hvalid₁ : ∀ p ∈ s₁.zip values₁, validFieldValue p.1 p.2 = true)
    (hvalid₂ : ∀ p ∈ s₂.zip values₂, validFieldValue p.1 p.2 = true)
    (hvalidv : validFieldValue fk v = true) :
    ∃ (w1 w2 : BinaryWriter) (E₁ E₂ encV : List Nat) (nk : Nat),
      toWriter (s₁ ++ [fk] ++ s₂)
        (values₁.map some ++ [none] ++ values₂.map some) (some bo) lv rp = .ok w1 ∧
      (resolveVar (some true) fk.fmt).byteSize = some nk ∧
      w1.reserved = [(reserveName fk.name (some rp),
        ⟨E₁.length, ⟨some bo, [resolveVar (some true) fk.fmt]⟩⟩)] ∧
      w1.array = E₁ ++ List.replicate nk 0 ++ E₂ ∧
      encV.length = nk ∧
      structFill w1 rp fk.name [v] = .ok w2 ∧
      w2.reserved = [] ∧
      w2.toBytesFinal = .ok (E₁ ++ encV ++ E₂) ∧
      toBytes (s₁ ++ [fk] ++ s₂)
        (values₁.map some ++ [some v] ++ values₂.map some) (some bo) lv rp =
        .ok (E₁ ++ encV ++ E₂) := by
  obtain ⟨E₁, hpk₁, hsz₁, hmem₁, hupk₁⟩ := structPack_unpack bo.isBig
    (s₁.map (fun f => resolveVar (some true) f.fmt)) values₁
    (validValues_of_zip s₁ values₁ hlen₁ hvalid₁)
  obtain ⟨E₂, hpk₂, hsz₂, hmem₂, hupk₂⟩ := structPack_unpack bo.isBig
    (s₂.map (fun f => resolveVar (some true) f.fmt)) values₂
    (validValues_of_zip s₂ values₂ hlen₂ hvalid₂)
  obtain ⟨encV, hencV, hlenV, hmemV, hdecV⟩ := encodeTok_spec bo.isBig
    (resolveVar (some true) fk.fmt) v (validFieldValue_elim fk v hvalidv).1
  obtain ⟨nk, hnk⟩ := resolveVar_byteSize (some true) fk.fmt
  have hlenV2 : encV.length = nk := Option.some.inj (hlenV.trans hnk)
  have hres₁ : s₁.map (fun f => resolveVar (some true) f.fmt) = s₁.map FieldSchema.fmt := by
    have h2 := noVarToks_map_resolveVar (some true) (s₁.map FieldSchema.fmt) hnovar₁
    rw [List.map_map] at h2
    exact h2
  have hszP : calcsize (s₁.map FieldSchema.fmt) = .ok E₁.length := by
    rw [← hres₁]
    exact hsz₁
  have hplain₁ : ∀ f ∈ s₁, plainField f = true := fun f hf => hplain f (by simp [hf])
  have hplain₂ : ∀ f ∈ s₂, plainField f = true := fun f hf => hplain f (by simp [hf])
  have hplaink : plainField fk = true := hplain fk (by simp)
  obtain ⟨hbck, hskk, hupfk, hpfk⟩ := plainField_elim fk hplaink
  have hpackv : structPack bo.isBig [resolveVar (some true) fk.fmt] [v] = .ok encV := by
    simp [structPack, hencV]
  have hmid : structPack bo.isBig [FmtTok.tbytes nk] [.vbytes (List.replicate nk 0)] =
      .ok (List.replicate nk 0) := by
    simp [structPack, encodeTok_nulls]
  -- the writer produced by the reservation step
  have hstep : toWriterStep bo lv rp ((mkBinaryWriter bo).array.length)
      (((s₁ ++ [fk] ++ s₂).map FieldSchema.name).zip
        (values₁.map some ++ [none] ++ values₂.map some))
      ⟨s₁.map FieldSchema.fmt, values₁, BitFieldWriter.cleared, mkBinaryWriter bo⟩
      fk none =
      .ok ⟨s₁.map FieldSchema.fmt ++ [.tbytes nk],
        values₁ ++ [.vbytes (List.replicate nk 0)], BitFieldWriter.cleared,
        { defaultByteOrder := bo, longVarints := some true
          array := []
          reserved := [(reserveName fk.name (some rp),
            ⟨E₁.length, ⟨some bo, [resolveVar (some true) fk.fmt]⟩⟩)] }⟩ := by
    have hgfs := getFmtSize_noVar (mkBinaryWriter bo) lv (s₁.map FieldSchema.fmt)
      E₁.length hlv hnovar₁ hszP
    simp only [mkBinaryWriter] at hgfs
    simp [toWriterStep, hskk, hbck, hsingle, hgfs, BinaryWriter.markReservedOffset,
      BinaryWriter.calcsize, parseFmt, mkBinaryWriter, calcsize, hnk, reserveName,
      BitFieldWriter.empty, BitFieldWriter.cleared]
  -- loops over the two concrete segments
  have hloop₁ := toWriterLoop_plain bo lv rp ((mkBinaryWriter bo).array.length)
    (((s₁ ++ [fk] ++ s₂).map FieldSchema.name).zip
      (values₁.map some ++ [none] ++ values₂.map some))
    s₁ values₁ ⟨[], [], BitFieldWriter.cleared, mkBinaryWriter bo⟩
    hlen₁ hplain₁ hvalid₁ rfl
  have hloop₁' : toWriterLoop bo lv rp ((mkBinaryWriter bo).array.length)
      (((s₁ ++ [fk] ++ s₂).map FieldSchema.name).zip
        (values₁.map some ++ [none] ++ values₂.map some))
      (s₁.zip (values₁.map some)) ⟨[], [], BitFieldWriter.cleared, mkBinaryWriter bo⟩ =
      .ok ⟨s₁.map FieldSchema.fmt, values₁, BitFieldWriter.cleared, mkBinaryWriter bo⟩ := by
    rw [hloop₁]
    simp
  have hloop₂ := toWriterLoop_plain bo lv rp ((mkBinaryWriter bo).array.length)
    (((s₁ ++ [fk] ++ s₂).map FieldSchema.name).zip
      (values₁.map some ++ [none] ++ values₂.map some))
    s₂ values₂ ⟨s₁.map FieldSchema.fmt ++ [.tbytes nk],
      values₁ ++ [.vbytes (List.replicate nk 0)], BitFieldWriter.cleared,
      { defaultByteOrder := bo, longVarints := some true
        array := []
        reserved := [(reserveName fk.name (some rp),
          ⟨E₁.length, ⟨some bo, [resolveVar (some true) fk.fmt]⟩⟩)] }⟩
    hlen₂ hplain₂ hvalid₂ rfl
  have hloop₂' : toWriterLoop bo lv rp ((mkBinaryWriter bo).array.length)
      (((s₁ ++ [fk] ++ s₂).map FieldSchema.name).zip
        (values₁.map some ++ [none] ++ values₂.map some))
      (s₂.zip (values₂.map some))
      ⟨s₁.map FieldSchema.fmt ++ [.tbytes nk],
        values₁ ++ [.vbytes (List.replicate nk 0)], BitFieldWriter.cleared,
        { defaultByteOrder := bo, longVarints := some true
          array := []
          reserved := [(reserveName fk.name (some rp),
            ⟨E₁.length, ⟨some bo, [resolveVar (some true) fk.fmt]⟩⟩)] }⟩ =
      .ok ⟨(s₁.map FieldSchema.fmt ++ [.tbytes nk]) ++ s₂.map FieldSchema.fmt,
        (values₁ ++ [.vbytes (List.replicate nk 0)]) ++ values₂, BitFieldWriter.cleared,
        { defaultByteOrder := bo, longVarints := some true
          array := []
          reserved := [(reserveName fk.name (some rp),
            ⟨E₁.length, ⟨some bo, [resolveVar (some true) fk.fmt]⟩⟩)] }⟩ := by
    rw [hloop₂]
  -- zip decomposition of the whole field/value sequence
  have hzip : (s₁ ++ [fk] ++ s₂).zip (values₁.map some ++ [none] ++ values₂.map some) =
      (s₁.zip (values₁.map some) ++ [(fk, none)]) ++ s₂.zip (values₂.map some) := by
    rw [List.zip_append (by simp [hlen₁])]
    rw [List.zip_append (by simp [hlen₁])]
    rfl
  -- the packed writer
  have htoW : toWriter (s₁ ++ [fk] ++ s₂)
      (values₁.map some ++ [none] ++ values₂.map some) (some bo) lv rp =
      .ok { defaultByteOrder := bo, longVarints := some true
            array := E₁ ++ List.replicate nk 0 ++ E₂
            reserved := [(reserveName fk.name (some rp),
              ⟨E₁.length, ⟨some bo, [resolveVar (some true) fk.fmt]⟩⟩)] } := by
    have hA : toWriterLoop bo lv rp ((mkBinaryWriter bo).array.length)
        (((s₁ ++ [fk] ++ s₂).map FieldSchema.name).zip
          (values₁.map some ++ [none] ++ values₂.map some))
        (s₁.zip (values₁.map some) ++ [(fk, none)])
        ⟨[], [], BitFieldWriter.cleared, mkBinaryWriter bo⟩ =
        .ok ⟨s₁.map FieldSchema.fmt ++ [.tbytes nk],
          values₁ ++ [.vbytes (List.replicate nk 0)], BitFieldWriter.cleared,
          { defaultByteOrder := bo, longVarints := some true
            array := []
            reserved := [(reserveName fk.name (some rp),
              ⟨E₁.length, ⟨some bo, [resolveVar (some true) fk.fmt]⟩⟩)] }⟩ := by
      rw [toWriterLoop_append bo lv rp _ _ _ _ _ _ hloop₁']
      simp only [toWriterLoop]
      rw [hstep]
    have hAB := toWriterLoop_append bo lv rp ((mkBinaryWriter bo).array.length)
      (((s₁ ++ [fk] ++ s₂).map FieldSchema.name).zip
        (values₁.map some ++ [none] ++ values₂.map some))
      (s₁.zip (values₁.map some) ++ [(fk, none)]) (s₂.zip (values₂.map some))
      ⟨[], [], BitFieldWriter.cleared, mkBinaryWriter bo⟩ _ hA
    rw [show toWriter (s₁ ++ [fk] ++ s₂)
        (values₁.map some ++ [none] ++ values₂.map some) (some bo) lv rp =
      (match toWriterLoop bo lv rp ((mkBinaryWriter bo).array.length)
          (((s₁ ++ [fk] ++ s₂).map FieldSchema.name).zip
            (values₁.map some ++ [none] ++ values₂.map some))
          ((s₁ ++ [fk] ++ s₂).zip (values₁.map some ++ [none] ++ values₂.map some))
          ⟨[], [], BitFieldWriter.cleared, mkBinaryWriter bo⟩ with
        | .error e => .error e
        | .ok st => st.writer.pack ⟨none, st.fullFmt⟩ st.structInput) from rfl]
    rw [hzip, hAB, hloop₂']
    -- the single bulk pack call
    have hfull : structPack bo.isBig
        (((s₁.map FieldSchema.fmt ++ [FmtTok.tbytes nk]) ++ s₂.map FieldSchema.fmt).map
          (resolveVar (some true)))
        ((values₁ ++ [BinValue.vbytes (List.replicate nk 0)]) ++ values₂) =
        .ok ((E₁ ++ List.replicate nk 0) ++ E₂) := by
      rw [List.map_append, List.map_append]
      have hp1 : structPack bo.isBig ((s₁.map FieldSchema.fmt).map (resolveVar (some true)))
          values₁ = .ok E₁ := by
        rw [List.map_map]
        exact hpk₁
      have hpmid : structPack bo.isBig ([FmtTok.tbytes nk].map (resolveVar (some true)))
          [BinValue.vbytes (List.replicate nk 0)] = .ok (List.replicate nk 0) := by
        simpa [resolveVar] using hmid
      have hp2 : structPack bo.isBig ((s₂.map FieldSchema.fmt).map (resolveVar (some true)))
          values₂ = .ok E₂ := by
        rw [List.map_map]
        exact hpk₂
      exact structPack_append bo.isBig _ _ _ _ _ _
        (structPack_append bo.isBig _ _ _ _ _ _ hp1 hpmid) hp2
    rw [show ((match (Except.ok (⟨(s₁.map FieldSchema.fmt ++ [.tbytes nk]) ++ s₂.map FieldSchema.fmt,
        (values₁ ++ [.vbytes (List.replicate nk 0)]) ++ values₂, BitFieldWriter.cleared,
        { defaultByteOrder := bo, longVarints := some true
          array := []
          reserved := [(reserveName fk.name (some rp),
            ⟨E₁.length, ⟨some bo, [resolveVar (some true) fk.fmt]⟩⟩)] }⟩ : PackState) :
        Except String PackState) with
      | .error e => .error e
      | .ok st => st.writer.pack ⟨none, st.fullFmt⟩ st.structInput) :
        Except String BinaryWriter) =
      ((match structPack bo.isBig
          (((s₁.map FieldSchema.fmt ++ [FmtTok.tbytes nk]) ++ s₂.map FieldSchema.fmt).map
            (resolveVar (some true)))
          ((values₁ ++ [BinValue.vbytes (List.replicate nk 0)]) ++ values₂) with
        | .error e => .error e
        | .ok bs =>
          Except.ok { defaultByteOrder := bo, longVarints := some true
                      array := [] ++ bs
                      reserved := [(reserveName fk.name (some rp),
                        ⟨E₁.length, ⟨some bo, [resolveVar (some true) fk.fmt]⟩⟩)] }) :
        Except String BinaryWriter) from rfl]
    rw [hfull]
    rfl
  refine ⟨_, { defaultByteOrder := bo, longVarints := some true
               array := E₁ ++ encV ++ E₂, reserved := [] },
    E₁, E₂, encV, nk, htoW, hnk, rfl, rfl, hlenV2, ?_, rfl, rfl, ?_⟩
  · -- filling the reservation patches exactly the placeholder span
    have hwm : writeAt (E₁ ++ List.replicate nk 0 ++ E₂) E₁.length encV =
        E₁ ++ encV ++ E₂ :=
      writeAt_middle E₁ (List.replicate nk 0) E₂ encV (by simp [hlenV2])
    simp only [structFill, BinaryWriter.fill]
    rw [if_neg (by simp)]
    simp [List.lookup, hpackv]
    simpa [List.append_assoc] using hwm
  · -- packing with the value given directly yields the same bytes
    have hlenAll : (values₁ ++ [v] ++ values₂).length = (s₁ ++ [fk] ++ s₂).length := by
      simp [hlen₁, hlen₂]
    have hzAll : (s₁ ++ [fk] ++ s₂).zip (values₁ ++ [v] ++ values₂) =
        (s₁.zip values₁ ++ [(fk, v)]) ++ s₂.zip values₂ := by
      rw [List.zip_append (by simp [hlen₁])]
      rw [List.zip_append hlen₁.symm]
      rfl
    have hvalidAll : ∀ p ∈ (s₁ ++ [fk] ++ s₂).zip (values₁ ++ [v] ++ values₂),
        validFieldValue p.1 p.2 = true := by
      rw [hzAll]
      intro p hp
      rcases List.mem_append.mp hp with hp | hp
      · rcases List.mem_append.mp hp with hp | hp
        · exact hvalid₁ p hp
        · simp only [List.mem_singleton] at hp
          subst hp
          exact hvalidv
      · exact hvalid₂ p hp
    have hmapv : values₁.map some ++ [some v] ++ values₂.map some =
        (values₁ ++ [v] ++ values₂).map some := by
      simp
    have hloopAll := toWriterLoop_plain bo lv rp ((mkBinaryWriter bo).array.length)
      (((s₁ ++ [fk] ++ s₂).map FieldSchema.name).zip
        ((values₁ ++ [v] ++ values₂).map some))
      (s₁ ++ [fk] ++ s₂) (values₁ ++ [v] ++ values₂)
      ⟨[], [], BitFieldWriter.cleared, mkBinaryWriter bo⟩
      hlenAll hplain hvalidAll rfl
    have hloopAll' : toWriterLoop bo lv rp ((mkBinaryWriter bo).array.length)
        (((s₁ ++ [fk] ++ s₂).map FieldSchema.name).zip ((values₁ ++ [v] ++ values₂).map some))
        ((s₁ ++ [fk] ++ s₂).zip ((values₁ ++ [v] ++ values₂).map some))
        ⟨[], [], BitFieldWriter.cleared, mkBinaryWriter bo⟩ =
        .ok ⟨(s₁ ++ [fk] ++ s₂).map FieldSchema.fmt, values₁ ++ [v] ++ values₂,
          BitFieldWriter.cleared, mkBinaryWriter bo⟩ := by
      rw [hloopAll]
      rfl
    have hfull2 : structPack bo.isBig
        (((s₁ ++ [fk] ++ s₂).map FieldSchema.fmt).map (resolveVar (some true)))
        (values₁ ++ [v] ++ values₂) = .ok ((E₁ ++ encV) ++ E₂) := by
      rw [List.map_append, List.map_append, List.map_append, List.map_append]
      have hp1 : structPack bo.isBig ((s₁.map FieldSchema.fmt).map (resolveVar (some true)))
          values₁ = .ok E₁ := by
        rw [List.map_map]
        exact hpk₁
      have hpmidv : structPack bo.isBig (([fk].map FieldSchema.fmt).map (resolveVar (some true)))
          [v] = .ok encV := by
        simpa using hpackv
      have hp2 : structPack bo.isBig ((s₂.map FieldSchema.fmt).map (resolveVar (some true)))
          values₂ = .ok E₂ := by
        rw [List.map_map]
        exact hpk₂
      exact structPack_append bo.isBig _ _ _ _ _ _
        (structPack_append bo.isBig _ _ _ _ _ _ hp1 hpmidv) hp2
    rw [hmapv]
    rw [show toBytes (s₁ ++ [fk] ++ s₂) ((values₁ ++ [v] ++ values₂).map some)
        (some bo) lv rp =
      ((match ((match toWriterLoop bo lv rp ((mkBinaryWriter bo).array.length)
            (((s₁ ++ [fk] ++ s₂).map FieldSchema.name).zip
              ((values₁ ++ [v] ++ values₂).map some))
            ((s₁ ++ [fk] ++ s₂).zip ((values₁ ++ [v] ++ values₂).map some))
            ⟨[], [], BitFieldWriter.cleared, mkBinaryWriter bo⟩ with
          | .error e => .error e
          | .ok st => st.writer.pack ⟨none, st.fullFmt⟩ st.structInput) :
          Except String BinaryWriter) with
        | .error e => .error e
        | .ok w =>
          match w.reserved with
          | [] => w.toBytesFinal
          | _ :: _ =>
            .error "BinaryStruct cannot fill all fields on its own. Use to_writer.") :
        Except String (List Nat)) from rfl]
    rw [hloopAll']
    rw [show ((match (Except.ok (⟨(s₁ ++ [fk] ++ s₂).map FieldSchema.fmt,
        values₁ ++ [v] ++ values₂, BitFieldWriter.cleared, mkBinaryWriter bo⟩ : PackState) :
        Except String PackState) with
      | .error e => .error e
      | .ok st => st.writer.pack ⟨none, st.fullFmt⟩ st.structInput) :
        Except String BinaryWriter) =
      ((match structPack bo.isBig
          (((s₁ ++ [fk] ++ s₂).map FieldSchema.fmt).map (resolveVar (some true)))
          (values₁ ++ [v] ++ values₂) with
        | .error e => .error e
        | .ok bs => Except.ok { defaultByteOrder := bo, longVarints := some true
                                array := [] ++ bs, reserved := [] }) :
        Except String BinaryWriter) from rfl]
    rw [hfull2]
    rfl

theorem reservation_roundtrip_resolved_witness :
    ∃ (w1 w2 : BinaryWriter) (E₁ E₂ encV : List Nat) (nk : Nat),
      toWriter ([⟨"a", .u8, [], none, none, -1, none⟩] ++
          [⟨"k", .u16, [], none, none, -1, none⟩] ++
          [⟨"b", .u8, [], none, none, -1, none⟩])
        ([BinValue.vint 1].map some ++ [none] ++ [BinValue.vint 3].map some)
        (some .littleEndian) (some true) "S" = .ok w1 ∧
      (resolveVar (some true) FmtTok.u16).byteSize = some nk ∧
      w1.reserved = [(reserveName "k" (some "S"),
        ⟨E₁.length, ⟨some .littleEndian, [resolveVar (some true) FmtTok.u16]⟩⟩)] ∧
      w1.array = E₁ ++ List.replicate nk 0 ++ E₂ ∧
      encV.length = nk ∧
      structFill w1 "S" "k" [BinValue.vint 513] = .ok w2 ∧
      w2.reserved = [] ∧
      w2.toBytesFinal = .ok (E₁ ++ encV ++ E₂) ∧
      toBytes ([⟨"a", .u8, [], none, none, -1, none⟩] ++
          [⟨"k", .u16, [], none, none, -1, none⟩] ++
          [⟨"b", .u8, [], none, none, -1, none⟩])
        ([BinValue.vint 1].map some ++ [some (BinValue.vint 513)] ++
          [BinValue.vint 3].map some)
        (some .littleEndian) (some true) "S" = .ok (E₁ ++ encV ++ E₂) := by
  exact reservation_roundtrip_resolved
    [⟨"a", .u8, [], none, none, -1, none⟩] [⟨"b", .u8, [], none, none, -1, none⟩]
    ⟨"k", .u16, [], none, none, -1, none⟩
    [.vint 1] [.vint 3] (.vint 513) .littleEndian (some true) "S"
    (by decide) (by decide) (by decide) (by decide) (by decide) (by decide)
    (by decide) (by decide) (by decide)

/-- C2: the reservation/fill roundtrip FAILS in the source when
`long_varints` is unresolved and the format preceding the reserved field is
misaligned.  `to_writer` computes the reservation offset with its
`get_fmt_size` closure, which for `long_varints = None` calls a bare
`struct.calcsize` on the unprefixed batched format — native-aligned — while
the placeholder bytes and the final single pack call use the
byte-order-prefixed format with standard sizes.  For fields `a:B=1, c:H=2,
k:H=None, b:B=3` (little-endian): the prefix `BH` is packed as 3 bytes but
`struct.calcsize("BH") = 4` (one alignment pad), so the reservation is
recorded at offset 4 although the null placeholder sits at offsets 3-4;
`fill(k, 513)` then patches bytes 4-5, clobbering field `b` and leaving the
placeholder byte null, and the finalized bytes differ from packing the
record with `k = 513` supplied directly — contradicting the claim and the
spec.  With a resolved flag `get_fmt_size` goes through the writer's
prefixed `calcsize`, the offset is 3, and the roundtrip holds on the same
record. -/
theorem c2_reservation_fill_misaligned_offset :
    ∃ (w1 w2 : BinaryWriter),
      toWriter [⟨"a", .u8, [], none, none, -1, none⟩,
          ⟨"c", .u16, [], none, none, -1, none⟩,
          ⟨"k", .u16, [], none, none, -1, none⟩,
          ⟨"b", .u8, [], none, none, -1, none⟩]
        [some (.vint 1), some (.vint 2), none, some (.vint 3)]
        (some .littleEndian) none "S" = .ok w1 ∧
      w1.reserved = [(reserveName "k" (some "S"),
        ⟨4, ⟨some .littleEndian, [.u16]⟩⟩)] ∧
      w1.array = [1, 2, 0, 0, 0, 3] ∧
      structFill w1 "S" "k" [.vint 513] = .ok w2 ∧
      w2.toBytesFinal = .ok [1, 2, 0, 0, 1, 2] ∧
      toBytes [⟨"a", .u8, [], none, none, -1, none⟩,
          ⟨"c", .u16, [], none, none, -1, none⟩,
          ⟨"k", .u16, [], none, none, -1, none⟩,
          ⟨"b", .u8, [], none, none, -1, none⟩]
        [some (.vint 1), some (.vint 2), some (.vint 513), some (.vint 3)]
        (some .littleEndian) none "S" = .ok [1, 2, 0, 1, 2, 3] ∧
      ([1, 2, 0, 0, 1, 2] : List Nat) ≠ [1, 2, 0, 1, 2, 3] ∧
      (∃ (w1' w2' : BinaryWriter),
        toWriter [⟨"a", .u8, [], none, none, -1, none⟩,
            ⟨"c", .u16, [], none, none, -1, none⟩,
            ⟨"k", .u16, [], none, none, -1, none⟩,
            ⟨"b", .u8, [], none, none, -1, none⟩]
          [some (.vint 1), some (.vint 2), none, some (.vint 3)]
          (some .littleEndian) (some true) "S" = .ok w1' ∧
        w1'.reserved = [(reserveName "k" (some "S"),
          ⟨3, ⟨some .littleEndian, [.u16]⟩⟩)] ∧
        w1'.array = [1, 2, 0, 0, 0, 3] ∧
        structFill w1' "S" "k" [.vint 513] = .ok w2' ∧
        w2'.toBytesFinal = .ok [1, 2, 0, 1, 2, 3]) := by
  exact ⟨_, _, rfl, rfl, rfl, rfl, rfl, rfl, by decide,
    ⟨_, _, rfl, rfl, rfl, rfl, rfl⟩⟩

/-- C5: the reservation ledger's error conditions — reserving (in either
mode) under a key already present raises; filling a key not present raises
(so a second fill of a consumed key raises); finalization with a non-empty
ledger raises an error naming every outstanding key; and all three
mutating operations preserve key uniqueness, so the ledger never holds two
reservations with one key. -/
theorem c5_reservation_ledger_errors (w : BinaryWriter) (name : String)
    (obj : Option String) (f : FmtStr) (off : Nat) (vals : List BinValue)
    (hvals : vals ≠ []) :
    ((w.reserved.lookup (reserveName name obj)).isSome = true →
      w.reserve name f obj = .error "Name is already reserved in BinaryWriter." ∧
      w.markReservedOffset name f off obj =
        .error "Name is already reserved in BinaryWriter.") ∧
    ((w.reserved.lookup (reserveName name obj)).isSome = false →
      w.fill name vals obj = .error "Name is not reserved in BinaryWriter.") ∧
    (∀ w2, w.fill name vals obj = .ok w2 →
      w2.fill name vals obj = .error "Name is not reserved in BinaryWriter.") ∧
    (w.reserved ≠ [] →
      w.toBytesFinal = .error (unfilledMessage (w.reserved.map Prod.fst))) ∧
    ((w.reserved.map Prod.fst).Nodup →
      (∀ w2, w.reserve name f obj = .ok w2 → (w2.reserved.map Prod.fst).Nodup) ∧
      (∀ w2, w.markReservedOffset name f off obj = .ok w2 →
        (w2.reserved.map Prod.fst).Nodup) ∧
      (∀ w2, w.fill name vals obj = .ok w2 → (w2.reserved.map Prod.fst).Nodup)) := by
  refine ⟨?_, ?_, ?_, ?_, ?_⟩
  · intro hsome
    constructor
    · simp only [BinaryWriter.reserve, hsome, if_pos]
    · simp only [BinaryWriter.markReservedOffset, hsome, if_pos]
  · intro hnone
    have : w.reserved.lookup (reserveName name obj) = none := by
      cases hl : w.reserved.lookup (reserveName name obj) with
      | none => rfl
      | some r => rw [hl] at hnone; cases hnone
    simp only [BinaryWriter.fill, if_neg hvals, this]
  · intro w2 hfill
    simp only [BinaryWriter.fill, if_neg hvals] at hfill
    split at hfill
    · exact absurd hfill (by simp)
    · split at hfill
      · exact absurd hfill (by simp)
      · cases hfill
        simp only [BinaryWriter.fill, if_neg hvals, lookup_filter_ne]
  · intro hne
    cases hr : w.reserved with
    | nil => exact absurd hr hne
    | cons r rs => simp [BinaryWriter.toBytesFinal, hr]
  · intro hnd
    refine ⟨?_, ?_, ?_⟩
    · intro w2 hop
      simp only [BinaryWriter.reserve] at hop
      split at hop
      · exact absurd hop (by simp)
      · rename_i hsome2
        split at hop
        · exact absurd hop (by simp)
        · cases hop
          refine nodup_keys_append _ _ _ hnd ?_
          cases hx : (w.reserved.lookup (reserveName name obj)).isSome with
          | false => rfl
          | true => exact absurd hx hsome2
    · intro w2 hop
      simp only [BinaryWriter.markReservedOffset] at hop
      split at hop
      · exact absurd hop (by simp)
      · rename_i hsome2
        cases hop
        refine nodup_keys_append _ _ _ hnd ?_
        cases hx : (w.reserved.lookup (reserveName name obj)).isSome with
        | false => rfl
        | true => exact absurd hx hsome2
    · intro w2 hop
      simp only [BinaryWriter.fill, if_neg hvals] at hop
      split at hop
      · exact absurd hop (by simp)
      · split at hop
        · exact absurd hop (by simp)
        · cases hop
          exact nodup_keys_filter _ _ hnd

/-- Witness for C5 on a concrete one-reservation writer. -/
theorem c5_reservation_ledger_errors_witness :
    (BinaryWriter.mk .littleEndian (some true) [0]
        [("k", ⟨0, ⟨some .littleEndian, [.u8]⟩⟩)]).reserve "k" ⟨none, [.u8]⟩ none =
      .error "Name is already reserved in BinaryWriter." ∧
    (BinaryWriter.mk .littleEndian (some true) [0]
        [("k", ⟨0, ⟨some .littleEndian, [.u8]⟩⟩)]).fill "other" [.vint 1] none =
      .error "Name is not reserved in BinaryWriter." ∧
    (BinaryWriter.mk .littleEndian (some true) [0]
        [("k", ⟨0, ⟨some .littleEndian, [.u8]⟩⟩)]).toBytesFinal =
      .error (unfilledMessage ["k"]) := by
  have h1 := c5_reservation_ledger_errors
    (BinaryWriter.mk .littleEndian (some true) [0] [("k", ⟨0, ⟨some .littleEndian, [.u8]⟩⟩)])
    "k" none ⟨none, [.u8]⟩ 0 [.vint 1] (by decide)
  have h2 := c5_reservation_ledger_errors
    (BinaryWriter.mk .littleEndian (some true) [0] [("k", ⟨0, ⟨some .littleEndian, [.u8]⟩⟩)])
    "other" none ⟨none, [.u8]⟩ 0 [.vint 1] (by decide)
  refine ⟨(h1.1 (by decide)).1, h2.2.1 (by decide), ?_⟩
  have h3 := h1.2.2.2.1 (by decide)
  simpa using h3

/-- C8: `get_size` is a function of the schema's full format string, byte
order and width flag only; with a varint token and no flag it raises; with
a resolved flag every varint/varuint token is sized as 8 bytes when the
flag is true and 4 when false (the other tokens keep their fixed sizes). -/
theorem c8_get_size (s s2 : List FieldSchema) (bo bo2 : ByteOrder) (lv : Option Bool) :
    (getFullFmt s none none = getFullFmt s2 none none →
      getSize s bo lv = getSize s2 bo2 lv) ∧
    ((getFullFmt s none none).any
        (fun t => t == FmtTok.varint || t == FmtTok.varuint) = true →
      getSize s bo none =
        .error "Struct has varint fields. long_varints must be set to get size.") ∧
    (∀ b : Bool, getSize s bo (some b) =
      .ok ((((getFullFmt s none none).map (resolveVar (some b))).map
        (fun t => t.byteSize.getD 0)).sum)) ∧
    (resolveVar (some true) FmtTok.varint).byteSize = some 8 ∧
    (resolveVar (some true) FmtTok.varuint).byteSize = some 8 ∧
    (resolveVar (some false) FmtTok.varint).byteSize = some 4 ∧
    (resolveVar (some false) FmtTok.varuint).byteSize = some 4 := by
  refine ⟨?_, ?_, ?_, rfl, rfl, rfl, rfl⟩
  · intro hfmt
    simp only [getSize, hfmt]
  · intro hvar
    simp [getSize, hvar]
  · intro b
    by_cases hvar : (getFullFmt s none none).any
        (fun t => t == FmtTok.varint || t == FmtTok.varuint) = true
    · simp only [getSize, hvar, if_pos]
      exact calcsize_eq_sum _ (fun t ht => by
        obtain ⟨t0, _, ht0⟩ := List.mem_map.mp ht
        obtain ⟨n, hn⟩ := resolveVar_byteSize (some b) t0
        rw [← ht0, hn]
        rfl)
    · have hvar' : (getFullFmt s none none).any
          (fun t => t == FmtTok.varint || t == FmtTok.varuint) = false := by
        cases hx : (getFullFmt s none none).any
            (fun t => t == FmtTok.varint || t == FmtTok.varuint) with
        | true => exact absurd hx hvar
        | false => rfl
      have hprop : ∀ t ∈ getFullFmt s none none,
          ¬ t = FmtTok.varint ∧ ¬ t = FmtTok.varuint := by
        intro t ht
        have hq := List.any_eq_false.mp hvar' t ht
        simpa using hq
      have hnv : noVarToks (getFullFmt s none none) = true := by
        simp only [noVarToks, List.all_eq_true]
        intro t ht
        obtain ⟨h1, h2⟩ := hprop t ht
        simp [h1, h2]
      rw [noVarToks_map_resolveVar (some b) _ hnv]
      simp only [getSize, hvar', Bool.false_eq_true, if_false]
      exact calcsize_eq_sum _
        (fun t ht => noVar_byteSize_isSome t (hprop t ht).1 (hprop t ht).2)

/-- Witness for C8 on a two-field schema (`H` plus a varint). -/
theorem c8_get_size_witness :
    getSize [⟨"a", .u16, [], none, none, -1, none⟩,
      ⟨"b", .varint, [], none, none, -1, none⟩] .littleEndian none =
      .error "Struct has varint fields. long_varints must be set to get size." ∧
    getSize [⟨"a", .u16, [], none, none, -1, none⟩,
      ⟨"b", .varint, [], none, none, -1, none⟩] .littleEndian (some true) = .ok 10 ∧
    getSize [⟨"a", .u16, [], none, none, -1, none⟩,
      ⟨"b", .varint, [], none, none, -1, none⟩] .littleEndian (some false) = .ok 6 := by
  have h := c8_get_size
    [⟨"a", .u16, [], none, none, -1, none⟩, ⟨"b", .varint, [], none, none, -1, none⟩]
    [⟨"a", .u16, [], none, none, -1, none⟩, ⟨"b", .varint, [], none, none, -1, none⟩]
    .littleEndian .littleEndian none
  refine ⟨h.2.1 (by decide), ?_, ?_⟩
  · rw [h.2.2.1 true]
    rfl
  · rw [h.2.2.1 false]
    rfl

end Constrata
